import Mathlib

/-!
# YUV 4:2:0 to packed 4-channel conversion (`native-lib.cpp`)

A shallow embedding of `src/app/src/main/cpp/native-lib.cpp`:

* the BT.601 fixed-point constants (lines 7-12),
* `PlaneInfo` / `YUVInfo` (lines 15-28),
* the loop body `YUV420p2RGBA::operator()` (lines 55-113),
* the entry point `YUV2BGRA` (lines 136-170).

Conventions of the embedding.

* `uint8_t` is `Fin 256`; `int` is `Int`, every arithmetic operation of the pixel
  computation being reduced to 32-bit two's complement by `wrap32`.
* A plane pointer is the list of bytes readable from it.  Dereferencing an offset
  outside that list is undefined behaviour in C++ and `none` here; the same holds for
  a store outside the output buffer.  Every function that touches memory therefore
  returns an `Option`.
* Pointer offsets are exact integers.  Pointers are 64 bits wide; the `int` products
  `2 * j * _yRowStride`, `j * _uRowStride` and `j * _vRowStride` are offsets of samples
  the row pair reads, so they are exact whenever those reads succeed in a plane shorter
  than `2^31` bytes, which is every buffer the host can hand over.
* The host image is the interface of the specification: width, height, format code and
  the array of planes `getPlanes()` returns.  A frame of format 35 has three planes; an
  image of another format may have fewer, and fetching a plane the array does not have
  (`GetObjectArrayElement` past the end, then calls on the null plane) aborts the
  process, which is `none` here.
* The executor `cv::parallel_for_` is a parameter, the list of bands it chooses for a
  range, run in list order.
* The output `cv::Mat` is its dimensions together with one contiguous byte buffer,
  four bytes per pixel, row `r` starting at byte `r * (4 * cols)`.
-/

namespace Demondk

/-! ## Machine arithmetic -/

/-- The C++ type `uint8_t`. -/
abbrev Byte := Fin 256

/-- Reduction of an integer to the 32-bit two's complement range of `int`. -/
def wrap32 (x : Int) : Int := (x + 2 ^ 31) % 2 ^ 32 - 2 ^ 31

/-- The `int` addition `a + b`. -/
def add32 (a b : Int) : Int := wrap32 (a + b)

/-- The `int` subtraction `a - b`. -/
def sub32 (a b : Int) : Int := wrap32 (a - b)

/-- The `int` multiplication `a * b`. -/
def mul32 (a b : Int) : Int := wrap32 (a * b)

/-- The `int` left shift `a << n`. -/
def shl32 (a : Int) (n : Nat) : Int := wrap32 (a * 2 ^ n)

/-- The `int` right shift `a >> n`, arithmetic (sign-preserving, rounding down). -/
def sar32 (a : Int) (n : Nat) : Int := a >>> n

/-- The conversion `static_cast<int>(b)` of a byte. -/
def toInt (b : Byte) : Int := (b.val : Int)

/-- Modelled from the spec: `cv::saturate_cast<uint8_t>(int)` of OpenCV, the glossary's
"saturation cast", clamping to `[0, 255]` instead of wrapping.  OpenCV defines it as
`(uchar)((unsigned)v <= UCHAR_MAX ? v : v > 0 ? UCHAR_MAX : 0)`. -/
def saturate_cast (v : Int) : Byte :=
  if 0 ≤ v ∧ v ≤ 255 then Fin.ofNat v.toNat else if v > 0 then 255 else 0

/-! ## Constants (lines 7-12) -/

def ITUR_BT_601_CY : Int := 1220542
def ITUR_BT_601_CUB : Int := 2116026
def ITUR_BT_601_CUG : Int := -409993
def ITUR_BT_601_CVG : Int := -852492
def ITUR_BT_601_CVR : Int := 1673527
def ITUR_BT_601_SHIFT : Nat := 20

/-! ## Data model (lines 15-28) -/

/-- One colour plane: the bytes readable from `ptr`, and its two strides. -/
structure PlaneInfo where
  ptr : List Byte
  pixelStride : Int
  rowStride : Int
deriving DecidableEq

inductive YUV_FORMAT where
  | UNSUPPORTED
  | YUV_420_888
deriving DecidableEq

/-- The frame descriptor; `planes` is `std::array<PlaneInfo, 3>` in the order Y, U, V.
`YUV2BGRA` fills in the planes only, the other fields keep their defaults. -/
structure YUVInfo where
  format : YUV_FORMAT
  width : Int
  height : Int
  plane0 : PlaneInfo
  plane1 : PlaneInfo
  plane2 : PlaneInfo
deriving DecidableEq

/-- Modelled from the spec: the part of `cv::Mat` the program uses, an image of type
`CV_8UC4` with contiguous rows ("4-channel, 8-bit-per-channel buffer, `height` rows ×
`width` columns, contiguous rows"). -/
structure Mat where
  rows : Nat
  cols : Nat
  data : List Byte
deriving DecidableEq

/-- The default-constructed `cv::Mat`, returned by `return {}`. -/
def Mat.empty : Mat := ⟨0, 0, []⟩

/-- The constructor `cv::Mat(rows, cols, CV_8UC4)`.  It does not initialise the pixels:
`fresh i` is whatever byte the allocation holds at index `i`. -/
def Mat.create (rows cols : Int) (fresh : Nat → Byte) : Mat :=
  ⟨rows.toNat, cols.toNat, (List.range (rows.toNat * (4 * cols.toNat))).map fresh⟩

/-- Byte offset of the start of row `r`, the value of `ptr<uint8_t>(r)` relative to the
start of the buffer. -/
def Mat.ptr (m : Mat) (r : Nat) : Nat := r * (4 * m.cols)

/-- Modelled from the spec: `cv::Range`, a band `[start, end)` of row pairs.  The bands
handed to the loop body are parts of `[0, rows / 2)`, so naturals. -/
structure Range where
  start : Nat
  stop : Nat
deriving DecidableEq

/-! ## Memory access -/

/-- The load `*(p + off)`. -/
def readByte (p : List Byte) (off : Int) : Option Byte :=
  if 0 ≤ off then p[off.toNat]? else none

/-- The store `d[off] = b`. -/
def writeByte (d : List Byte) (off : Nat) (b : Byte) : Option (List Byte) :=
  if off < d.length then some (d.set off b) else none

/-- A loop whose body runs `n` times on a state, failing as soon as the body fails. -/
def loopN {σ : Type} (n : Nat) (body : Nat → σ → Option σ) (s : σ) : Option σ :=
  (List.range n).foldlM (fun st k => body k st) s

/-! ## The loop body `YUV420p2RGBA` (lines 30-114) -/

/-- The members of `YUV420p2RGBA` that are read-only; the member `_output` is the `Mat`
threaded through `call`. -/
structure YUV420p2RGBA where
  _my : List Byte
  _mu : List Byte
  _mv : List Byte
  _yRowStride : Int
  _uRowStride : Int
  _vRowStride : Int
  _yPixelStride : Int
  _uPixelStride : Int
  _vPixelStride : Int

/-- The constructor (lines 42-53). -/
def YUV420p2RGBA.mk' (yuvInfo : YUVInfo) : YUV420p2RGBA where
  _my := yuvInfo.plane0.ptr
  _mu := yuvInfo.plane1.ptr
  _mv := yuvInfo.plane2.ptr
  _yRowStride := yuvInfo.plane0.rowStride
  _uRowStride := yuvInfo.plane1.rowStride
  _vRowStride := yuvInfo.plane2.rowStride
  _yPixelStride := yuvInfo.plane0.pixelStride
  _uPixelStride := yuvInfo.plane1.pixelStride
  _vPixelStride := yuvInfo.plane2.pixelStride

/-- The local variables of the column loop: the two output row cursors (byte offsets
in the output buffer), the four plane cursors (byte offsets in their planes), and the
output buffer. -/
structure Cursor where
  row1 : Nat
  row2 : Nat
  y1 : Int
  y2 : Int
  u1 : Int
  v1 : Int
  data : List Byte

/-- The chrominance terms of one 2×2 block. -/
structure Chroma where
  ruv : Int
  guv : Int
  buv : Int
deriving DecidableEq

/-- The chrominance terms computed from the block's `U` and `V` samples (lines 68-73). -/
def chroma (U V : Byte) : Chroma :=
  let u := sub32 (toInt U) 128
  let v := sub32 (toInt V) 128
  { ruv := add32 (shl32 1 (ITUR_BT_601_SHIFT - 1)) (mul32 ITUR_BT_601_CVR v)
    guv := add32 (add32 (shl32 1 (ITUR_BT_601_SHIFT - 1)) (mul32 ITUR_BT_601_CVG v))
      (mul32 ITUR_BT_601_CUG u)
    buv := add32 (shl32 1 (ITUR_BT_601_SHIFT - 1)) (mul32 ITUR_BT_601_CUB u) }

/-- The luma term `y00` of a sample (line 75; likewise `y01`, `y10`, `y11` at lines 83,
91 and 99). -/
def luma (Y : Byte) : Int :=
  mul32 (max 0 (sub32 (toInt Y) 16)) ITUR_BT_601_CY

/-- The byte stored for one colour channel, from the luma term and one chrominance term:
`cv::saturate_cast<uint8_t>((y + c) >> ITUR_BT_601_SHIFT)`. -/
def channel (y c : Int) : Byte :=
  saturate_cast (sar32 (add32 y c) ITUR_BT_601_SHIFT)

/-- The four stores of one output pixel at byte offset `p` of the output buffer
(lines 76-79; the same four statements at lines 84-87, 92-95 and 100-103). -/
def storePixel (d : List Byte) (p : Nat) (y : Int) (c : Chroma) : Option (List Byte) := do
  let d ← writeByte d (p + 0) (channel y c.buv)
  let d ← writeByte d (p + 1) (channel y c.guv)
  let d ← writeByte d (p + 2) (channel y c.ruv)
  writeByte d (p + 3) 0xff

/-- One pass of the column loop (lines 68-110): one 2×2 block. -/
def YUV420p2RGBA.block (k : YUV420p2RGBA) (s : Cursor) : Option Cursor := do
  let c := chroma (← readByte k._mu s.u1) (← readByte k._mv s.v1)
  let y00 := luma (← readByte k._my s.y1)
  let d ← storePixel s.data (s.row1 + 0) y00 c
  let y1 := s.y1 + k._yPixelStride
  let y01 := luma (← readByte k._my y1)
  let d ← storePixel d (s.row1 + 4) y01 c
  let y1 := y1 + k._yPixelStride
  let y10 := luma (← readByte k._my s.y2)
  let d ← storePixel d (s.row2 + 0) y10 c
  let y2 := s.y2 + k._yPixelStride
  let y11 := luma (← readByte k._my y2)
  let d ← storePixel d (s.row2 + 4) y11 c
  let y2 := y2 + k._yPixelStride
  pure
    { row1 := s.row1 + 8
      row2 := s.row2 + 8
      y1 := y1
      y2 := y2
      u1 := s.u1 + k._uPixelStride
      v1 := s.v1 + k._vPixelStride
      data := d }

/-- The four bytes the loop body stores for the pixel with luma sample `Y` in a block
with chroma samples `U`, `V`, in store order (offsets 0, 1, 2, 3 of the pixel). -/
def pixelBytes (Y U V : Byte) : List Byte :=
  [channel (luma Y) (chroma U V).buv, channel (luma Y) (chroma U V).guv,
    channel (luma Y) (chroma U V).ruv, 0xff]

/-- One pass of the row loop (lines 58-111): the row pair `j`.  The column loop
`for (int i = 0; i < width; i += 2)` runs its body `(width + 1) / 2` times. -/
def YUV420p2RGBA.rowPair (k : YUV420p2RGBA) (j : Nat) (output : Mat) : Option Mat := do
  let width := output.cols
  let y1 := 2 * (j : Int) * k._yRowStride
  let s ← loopN ((width + 1) / 2) (fun _ s => k.block s)
    { row1 := output.ptr (2 * j)
      row2 := output.ptr (2 * j + 1)
      y1 := y1
      y2 := y1 + k._yRowStride
      u1 := (j : Int) * k._uRowStride
      v1 := (j : Int) * k._vRowStride
      data := output.data }
  pure { output with data := s.data }

/-- The method `operator()(const cv::Range& range)` (lines 55-113): the row loop
`for (int j = range.start; j < range.end; j++)`. -/
def YUV420p2RGBA.call (k : YUV420p2RGBA) (range : Range) (output : Mat) : Option Mat :=
  loopN (range.stop - range.start) (fun i m => k.rowPair (range.start + i) m) output

/-! ## The entry point `YUV2BGRA` (lines 136-170) -/

/-- Modelled from the spec: the host's plane object, "a readable byte buffer address,
`pixelStride:int`, `rowStride:int`" (`getBuffer`, `getPixelStride`, `getRowStride`). -/
structure HostPlane where
  buffer : List Byte
  getPixelStride : Int
  getRowStride : Int
deriving DecidableEq

/-- Modelled from the spec: the host's image handle, "a handle exposing `width:int`,
`height:int`, `format:int`, and for each of 3 planes" a `HostPlane`.  `getPlanes` is the
array of planes the host returns: three for a frame of the planar 4:2:0 format, possibly
fewer for an image of another format. -/
structure HostImage where
  getWidth : Int
  getHeight : Int
  getFormat : Int
  getPlanes : List HostPlane
deriving DecidableEq

/-- A plane without bytes, standing for a plane the image does not have. -/
def HostPlane.absent : HostPlane := ⟨[], 0, 0⟩

/-- Plane 0 of the image, its luma plane. -/
def HostImage.planes0 (image : HostImage) : HostPlane := image.getPlanes.getD 0 HostPlane.absent

/-- Plane 1 of the image, its U plane. -/
def HostImage.planes1 (image : HostImage) : HostPlane := image.getPlanes.getD 1 HostPlane.absent

/-- Plane 2 of the image, its V plane. -/
def HostImage.planes2 (image : HostImage) : HostPlane := image.getPlanes.getD 2 HostPlane.absent

/-- Modelled from the spec: `cv::parallel_for_` of OpenCV, the "Parallel Executor":
it splits the range into bands and invokes the body once per band.  The bands and
their order are the executor's choice, the parameter `split`; they run one after the
other in list order. -/
def parallel_for_ (split : Range → List Range) (range : Range)
    (body : Range → Mat → Option Mat) (output : Mat) : Option Mat :=
  (split range).foldlM (fun m band => body band m) output

/-- One pass of the loop of lines 148-155 on a plane the array has: its buffer address
and its two strides. -/
def planeInfo (p : HostPlane) : PlaneInfo :=
  { pixelStride := p.getPixelStride, rowStride := p.getRowStride, ptr := p.buffer }

/-- The frame descriptor filled in by lines 137-155 of `YUV2BGRA`: only the three planes
are assigned, `format`, `width` and `height` keep their default member initialisers.
The loop fetches the elements 0, 1 and 2 of the array of planes and calls `getBuffer`,
`getPixelStride` and `getRowStride` on each; where the array has no such element the
fetch returns null with an exception pending and the calls on it abort: `none`. -/
def acquire (image : HostImage) : Option YUVInfo := do
  let p0 ← image.getPlanes[0]?
  let p1 ← image.getPlanes[1]?
  let p2 ← image.getPlanes[2]?
  pure
    { format := YUV_FORMAT.UNSUPPORTED, width := 0, height := 0
      plane0 := planeInfo p0, plane1 := planeInfo p1, plane2 := planeInfo p2 }

/-- The function `YUV2BGRA` (lines 136-170).  `split` is the executor's choice of bands
and `fresh` the content of the memory the output image is allocated in.  The planes are
acquired (lines 146-155) before the tests of lines 157-163. -/
def YUV2BGRA (split : Range → List Range) (fresh : Nat → Byte) (image : HostImage) :
    Option Mat := do
  let width := image.getWidth
  let height := image.getHeight
  let isYUV := image.getFormat == 35
  let yuvInfo ← acquire image
  if width ≤ 0 ∨ height ≤ 0 then
    some Mat.empty
  else if !isYUV then
    some Mat.empty
  else
    let output := Mat.create height width fresh
    parallel_for_ split ⟨0, output.rows / 2⟩ (YUV420p2RGBA.mk' yuvInfo).call output

/-- The four bytes of the pixel in row `r`, column `c` of an image. -/
def Mat.pixel (m : Mat) (r c : Nat) : List Byte :=
  (m.data.drop (m.ptr r + 4 * c)).take 4

/-! ## Well-formed frames -/

/-- The plane invariant of the data model for a grid of `h × w` samples: both strides
are positive, and the last sample of the grid, at offset
`rowStride * (h - 1) + pixelStride * (w - 1)`, lies in the buffer. -/
def HostPlane.Covers (p : HostPlane) (h w : Int) : Prop :=
  0 < p.getPixelStride ∧ 0 < p.getRowStride ∧
    p.getRowStride * (h - 1) + p.getPixelStride * (w - 1) < p.buffer.length

/-- A frame of the planar 4:2:0 layout: even width and height, a luma plane of
`height × width` samples and two chroma planes of `height/2 × width/2` samples, the three
planes of the format. -/
def HostImage.WellFormed (image : HostImage) : Prop :=
  image.getWidth % 2 = 0 ∧ image.getHeight % 2 = 0 ∧
    image.planes0.Covers image.getHeight image.getWidth ∧
    image.planes1.Covers (image.getHeight / 2) (image.getWidth / 2) ∧
    image.planes2.Covers (image.getHeight / 2) (image.getWidth / 2) ∧
    3 ≤ image.getPlanes.length

/-- The frame descriptor of an image that has its three planes. -/
def HostImage.yuvInfo (image : HostImage) : YUVInfo :=
  { format := YUV_FORMAT.UNSUPPORTED, width := 0, height := 0
    plane0 := planeInfo image.planes0, plane1 := planeInfo image.planes1
    plane2 := planeInfo image.planes2 }

/-- The loop body object `YUV2BGRA` constructs for an image that has its three planes. -/
def HostImage.kernel (image : HostImage) : YUV420p2RGBA :=
  YUV420p2RGBA.mk' image.yuvInfo

/-! ## The converted image, in closed form -/

/-- The byte at offset `off` of a plane, `0` where the plane has no such byte. -/
def readD (p : List Byte) (off : Int) : Byte := (readByte p off).getD 0

/-- The byte expected at byte offset `t` of an output row whose luma row starts at
offset `yOff` of the Y plane and whose chroma rows start at `uOff` and `vOff`: pixel
`t / 4` of the row, channel `t % 4`, block `t / 8`. -/
def YUV420p2RGBA.rowBytes (k : YUV420p2RGBA) (yOff uOff vOff : Int) (t : Nat) : Byte :=
  (pixelBytes (readD k._my (yOff + ((t / 4 : Nat) : Int) * k._yPixelStride))
    (readD k._mu (uOff + ((t / 8 : Nat) : Int) * k._uPixelStride))
    (readD k._mv (vOff + ((t / 8 : Nat) : Int) * k._vPixelStride))).getD (t % 4) 0

/-- The byte expected at byte offset `t` of output row `r`. -/
def YUV420p2RGBA.expected (k : YUV420p2RGBA) (r t : Nat) : Byte :=
  k.rowBytes ((r : Int) * k._yRowStride) (((r / 2 : Nat) : Int) * k._uRowStride)
    (((r / 2 : Nat) : Int) * k._vRowStride) t

/-- Every sample the loop body addresses for the pixels of rows below `R` and columns
below `C` lies inside its plane. -/
def YUV420p2RGBA.Readable (k : YUV420p2RGBA) (R C : Nat) : Prop :=
  ∀ r c, r < R → c < C →
    (readByte k._my ((r : Int) * k._yRowStride + (c : Int) * k._yPixelStride)).isSome ∧
    (readByte k._mu (((r / 2 : Nat) : Int) * k._uRowStride +
      ((c / 2 : Nat) : Int) * k._uPixelStride)).isSome ∧
    (readByte k._mv (((r / 2 : Nat) : Int) * k._vRowStride +
      ((c / 2 : Nat) : Int) * k._vPixelStride)).isSome

/-- The row pair `j` belongs to the band. -/
def Range.contains (band : Range) (j : Nat) : Bool :=
  decide (band.start ≤ j ∧ j < band.stop)

/-- The bands are a partition of the range into contiguous bands, listed in any order:
each band lies inside the range, and every row pair of the range belongs to exactly one
band. -/
def IsPartition (bands : List Range) (range : Range) : Prop :=
  (∀ band ∈ bands, range.start ≤ band.start ∧ band.start ≤ band.stop ∧
    band.stop ≤ range.stop) ∧
  ∀ j, range.start ≤ j → j < range.stop → (bands.filter (fun b => b.contains j)).length = 1

/-- The executor's bands for the image are a partition of its row pairs. -/
def ValidSplit (split : Range → List Range) (image : HostImage) : Prop :=
  IsPartition (split ⟨0, image.getHeight.toNat / 2⟩) ⟨0, image.getHeight.toNat / 2⟩

/-- The loop body run once per band, in list order. -/
def YUV420p2RGBA.runBands (k : YUV420p2RGBA) (bands : List Range) (output : Mat) :
    Option Mat :=
  bands.foldlM (fun m band => k.call band m) output

/-- Two images of the same dimensions and buffer size. -/
def SameShape (m m' : Mat) : Prop :=
  m'.rows = m.rows ∧ m'.cols = m.cols ∧ m'.data.length = m.data.length

/-- The value fits the C++ type `int` (32-bit two's complement). -/
def InInt32 (x : Int) : Prop := -2 ^ 31 ≤ x ∧ x < 2 ^ 31

/-- The executor that runs the whole range as a single band (one worker). -/
def whole (r : Range) : List Range := [r]

/-- The executor that runs one band per row pair, last row pair first. -/
def perRowReversed (r : Range) : List Range :=
  ((List.range (r.stop - r.start)).map (fun i => Range.mk (r.start + i) (r.start + i + 1))).reverse

/-! ## Sample frames -/

/-- The 2×2 frame of the specification's white scenario: unit pixel strides, tight row
strides. -/
def frame22 : HostImage :=
  { getWidth := 2, getHeight := 2, getFormat := 35
    getPlanes := [⟨[235, 235, 235, 235], 1, 2⟩,
      ⟨[128], 1, 1⟩,
      ⟨[128], 1, 1⟩] }

/-- A 2×2 frame with `Y = 16`, `U = 128`, `V = 255` everywhere: no blue, no green, red
only. -/
def redFrame : HostImage :=
  { getWidth := 2, getHeight := 2, getFormat := 35
    getPlanes := [⟨[16, 16, 16, 16], 1, 2⟩,
      ⟨[128], 1, 1⟩,
      ⟨[255], 1, 1⟩] }

/-- A frame of width 2 and odd height 3 that passes the validation of `YUV2BGRA`. -/
def oddFrame : HostImage :=
  { getWidth := 2, getHeight := 3, getFormat := 35
    getPlanes := [⟨[235, 235, 235, 235, 235, 235], 1, 2⟩,
      ⟨[128, 128], 1, 1⟩,
      ⟨[128, 128], 1, 1⟩] }

/-- A 4×4 frame with padded luma rows (row stride 6) and interleaved chroma (pixel
stride 2, row stride 4). -/
def frame44 : HostImage :=
  { getWidth := 4, getHeight := 4, getFormat := 35
    getPlanes := [⟨[16, 50, 90, 130, 0, 0, 170, 210, 235, 255, 0, 0,
      0, 10, 20, 30, 0, 0, 100, 120, 140, 160, 0, 0], 1, 6⟩,
      ⟨[0, 9, 255, 9, 128, 9, 90, 9], 2, 4⟩,
      ⟨[255, 9, 0, 9, 128, 9, 200, 9], 2, 4⟩] }

/-! ## The black frame and cut planes -/

/-- A 2×2 frame with `Y = 16` and `U = V = 128` at every sample, padded luma rows (row
stride 3) and a padding byte after each chroma sample. -/
def blackFrame : HostImage :=
  { getWidth := 2, getHeight := 2, getFormat := 35
    getPlanes := [⟨[16, 16, 99, 16, 16, 99], 1, 3⟩,
      ⟨[128, 77], 2, 2⟩,
      ⟨[128, 77], 2, 2⟩] }

/-- The plane cut right after the last sample of a grid of `h × w` samples: only the
bytes at offsets `0 .. rowStride * (h - 1) + pixelStride * (w - 1)` remain. -/
def HostPlane.cut (p : HostPlane) (h w : Int) : HostPlane :=
  { p with
    buffer := p.buffer.take (p.getRowStride * (h - 1) + p.getPixelStride * (w - 1) + 1).toNat }

/-- The frame with both chroma planes cut right after their last sample. -/
def HostImage.cutChroma (image : HostImage) : HostImage :=
  { image with
    getPlanes := [image.planes0,
      image.planes1.cut (image.getHeight / 2) (image.getWidth / 2),
      image.planes2.cut (image.getHeight / 2) (image.getWidth / 2)] }

/-- The frame with the luma plane cut right after its last sample. -/
def HostImage.cutLuma (image : HostImage) : HostImage :=
  { image with
    getPlanes := [image.planes0.cut image.getHeight image.getWidth, image.planes1,
      image.planes2] }

/-- An image of format 256 (JPEG), which the host delivers with a single plane holding
the compressed bytes, both strides 0. -/
def jpegImage : HostImage :=
  { getWidth := 640, getHeight := 480, getFormat := 256
    getPlanes := [⟨[255, 216, 255, 224, 0, 16], 0, 0⟩] }

/-- An image of format 39 (planar 4:2:2), which the host delivers with three planes. -/
def yuv422Image : HostImage :=
  { getWidth := 2, getHeight := 2, getFormat := 39
    getPlanes := [⟨[235, 235, 235, 235], 1, 2⟩, ⟨[128, 128], 1, 1⟩, ⟨[128, 128], 1, 1⟩] }

/-! ## The colour formulas of the specification -/

/-- The specification's `sat`: clamping of an integer to `[0, 255]`. -/
def sat (x : Int) : Int := if x < 0 then 0 else if 255 < x then 255 else x

/-- The specification's luma term `y = max(0, Y - 16) * 1220542`. -/
def specY (Y : Int) : Int := max 0 (Y - 16) * 1220542

/-- The specification's red: `sat((y + bias + 1673527 * v) >> 20)`, for `v = V - 128` and
`bias = 2^19`, the shift being the floor division by `2^20`. -/
def specR (Y V : Int) : Int := sat ((specY Y + 2 ^ 19 + 1673527 * (V - 128)) / 2 ^ 20)

/-- The specification's green: `sat((y + bias - 852492 * v - 409993 * u) >> 20)`. -/
def specG (Y U V : Int) : Int :=
  sat ((specY Y + 2 ^ 19 - 852492 * (V - 128) - 409993 * (U - 128)) / 2 ^ 20)

/-- The specification's blue: `sat((y + bias + 2116026 * u) >> 20)`. -/
def specB (Y U : Int) : Int := sat ((specY Y + 2 ^ 19 + 2116026 * (U - 128)) / 2 ^ 20)

/-- The bytes of a list as integers. -/
def bytesToInt (l : List Byte) : List Int := l.map toInt

/-! ## Pixel arithmetic -/

theorem wrap32_eq {x : Int} (h1 : -2 ^ 31 ≤ x) (h2 : x < 2 ^ 31) : wrap32 x = x := by
  unfold wrap32
  omega

theorem toInt_bounds (b : Byte) : 0 ≤ toInt b ∧ toInt b ≤ 255 := by
  unfold toInt
  omega

theorem sar32_eq (a : Int) : sar32 a ITUR_BT_601_SHIFT = a / 2 ^ 20 := by
  unfold sar32 ITUR_BT_601_SHIFT
  rw [Int.shiftRight_eq_div_pow]
  norm_num

theorem toInt_saturate_cast (v : Int) : toInt (saturate_cast v) = sat v := by
  unfold saturate_cast sat toInt
  by_cases h : 0 ≤ v ∧ v ≤ 255
  · rw [if_pos h]
    have : (Fin.ofNat v.toNat : Fin 256).val = v.toNat := by
      show v.toNat % 256 = v.toNat
      omega
    rw [this]
    split_ifs <;> omega
  · rw [if_neg h]
    split_ifs <;> omega

theorem luma_eq (Y : Byte) : luma Y = specY (toInt Y) := by
  have hb := toInt_bounds Y
  have h1 : sub32 (toInt Y) 16 = toInt Y - 16 := wrap32_eq (by omega) (by omega)
  unfold luma specY mul32 ITUR_BT_601_CY
  rw [h1]
  rcases le_total 0 (toInt Y - 16) with h | h
  · rw [max_eq_right h]
    exact wrap32_eq (by omega) (by omega)
  · rw [max_eq_left h]
    exact wrap32_eq (by omega) (by omega)

theorem specY_bounds (Y : Byte) : 0 ≤ specY (toInt Y) ∧ specY (toInt Y) ≤ 291709538 := by
  have hb := toInt_bounds Y
  unfold specY
  rcases le_total 0 (toInt Y - 16) with h | h
  · rw [max_eq_right h]
    omega
  · rw [max_eq_left h]
    omega

theorem chroma_eq (U V : Byte) :
    chroma U V =
      { ruv := 2 ^ 19 + 1673527 * (toInt V - 128)
        guv := 2 ^ 19 - 852492 * (toInt V - 128) - 409993 * (toInt U - 128)
        buv := 2 ^ 19 + 2116026 * (toInt U - 128) } := by
  have hu := toInt_bounds U
  have hv := toInt_bounds V
  have h1 : sub32 (toInt U) 128 = toInt U - 128 := wrap32_eq (by omega) (by omega)
  have h2 : sub32 (toInt V) 128 = toInt V - 128 := wrap32_eq (by omega) (by omega)
  have h3 : shl32 1 (ITUR_BT_601_SHIFT - 1) = 2 ^ 19 := by
    unfold shl32 ITUR_BT_601_SHIFT
    rw [wrap32_eq (by norm_num) (by norm_num)]
    norm_num
  have h4 : mul32 ITUR_BT_601_CVR (toInt V - 128) = 1673527 * (toInt V - 128) :=
    wrap32_eq (by unfold ITUR_BT_601_CVR; omega) (by unfold ITUR_BT_601_CVR; omega)
  have h5 : mul32 ITUR_BT_601_CVG (toInt V - 128) = -852492 * (toInt V - 128) :=
    wrap32_eq (by unfold ITUR_BT_601_CVG; omega) (by unfold ITUR_BT_601_CVG; omega)
  have h6 : mul32 ITUR_BT_601_CUG (toInt U - 128) = -409993 * (toInt U - 128) :=
    wrap32_eq (by unfold ITUR_BT_601_CUG; omega) (by unfold ITUR_BT_601_CUG; omega)
  have h7 : mul32 ITUR_BT_601_CUB (toInt U - 128) = 2116026 * (toInt U - 128) :=
    wrap32_eq (by unfold ITUR_BT_601_CUB; omega) (by unfold ITUR_BT_601_CUB; omega)
  have h8 : add32 (2 ^ 19) (1673527 * (toInt V - 128)) = 2 ^ 19 + 1673527 * (toInt V - 128) :=
    wrap32_eq (by omega) (by omega)
  have h9 : add32 (2 ^ 19) (-852492 * (toInt V - 128)) = 2 ^ 19 - 852492 * (toInt V - 128) := by
    unfold add32
    rw [wrap32_eq (by omega) (by omega)]
    omega
  have h10 : add32 (2 ^ 19 - 852492 * (toInt V - 128)) (-409993 * (toInt U - 128)) =
      2 ^ 19 - 852492 * (toInt V - 128) - 409993 * (toInt U - 128) := by
    unfold add32
    rw [wrap32_eq (by omega) (by omega)]
    omega
  have h11 : add32 (2 ^ 19) (2116026 * (toInt U - 128)) = 2 ^ 19 + 2116026 * (toInt U - 128) :=
    wrap32_eq (by omega) (by omega)
  unfold chroma
  simp only [h1, h2, h3, h4, h5, h6, h7, h8, h9, h10, h11]

theorem channel_eq (y c : Int) (h1 : -2 ^ 31 ≤ y + c) (h2 : y + c < 2 ^ 31) :
    toInt (channel y c) = sat ((y + c) / 2 ^ 20) := by
  unfold channel add32
  rw [wrap32_eq h1 h2, sar32_eq, toInt_saturate_cast]

/-- The four stored bytes are, in store order, the specification's blue, green and red
of the three samples, then 255. -/
theorem pixelBytes_eq (Y U V : Byte) :
    bytesToInt (pixelBytes Y U V) =
      [specB (toInt Y) (toInt U), specG (toInt Y) (toInt U) (toInt V),
        specR (toInt Y) (toInt V), 255] := by
  have hy := specY_bounds Y
  have hu := toInt_bounds U
  have hv := toInt_bounds V
  unfold pixelBytes bytesToInt
  simp only [List.map_cons, List.map_nil, chroma_eq, luma_eq]
  rw [channel_eq _ _ (by omega) (by omega), channel_eq _ _ (by omega) (by omega),
    channel_eq _ _ (by omega) (by omega)]
  unfold specB specG specR
  have e1 : specY (toInt Y) + (2 ^ 19 + 2116026 * (toInt U - 128)) =
      specY (toInt Y) + 2 ^ 19 + 2116026 * (toInt U - 128) := by ring
  have e2 : specY (toInt Y) + (2 ^ 19 - 852492 * (toInt V - 128) - 409993 * (toInt U - 128)) =
      specY (toInt Y) + 2 ^ 19 - 852492 * (toInt V - 128) - 409993 * (toInt U - 128) := by ring
  have e3 : specY (toInt Y) + (2 ^ 19 + 1673527 * (toInt V - 128)) =
      specY (toInt Y) + 2 ^ 19 + 1673527 * (toInt V - 128) := by ring
  rw [e1, e2, e3]
  rfl

/-! ## Memory effect of the loop body -/

theorem getElem?_four {α : Type} (a b c e : α) (p i : Nat) (h1 : p ≤ i) (h2 : i < p + 4) :
    [a, b, c, e][i - p]? =
      if i = p then some a else if i = p + 1 then some b else if i = p + 2 then some c
      else some e := by
  obtain ⟨t, rfl⟩ : ∃ t, i = p + t := ⟨i - p, by omega⟩
  have ht : t < 4 := by omega
  rw [Nat.add_sub_cancel_left]
  interval_cases t <;> simp

theorem storePixel_spec (d : List Byte) (p : Nat) (y : Int) (c : Chroma)
    (h : p + 4 ≤ d.length) :
    ∃ d', storePixel d p y c = some d' ∧ d'.length = d.length ∧
      ∀ i, d'[i]? = if p ≤ i ∧ i < p + 4 then
          [channel y c.buv, channel y c.guv, channel y c.ruv, 0xff][i - p]?
        else d[i]? := by
  have h0 : p < d.length := by omega
  have h1 : p + 1 < d.length := by omega
  have h2 : p + 2 < d.length := by omega
  have h3 : p + 3 < d.length := by omega
  refine ⟨(((d.set p (channel y c.buv)).set (p + 1) (channel y c.guv)).set (p + 2)
    (channel y c.ruv)).set (p + 3) 0xff, ?_, by simp, fun i => ?_⟩
  · simp [storePixel, writeByte, h0, h1, h2, h3]
  · by_cases hi : p ≤ i ∧ i < p + 4
    · rw [if_pos hi, getElem?_four _ _ _ _ p i hi.1 hi.2]
      simp only [List.getElem?_set, List.length_set]
      split_ifs <;> first | rfl | omega
    · rw [if_neg hi]
      simp only [List.getElem?_set, List.length_set]
      split_ifs <;> first | rfl | omega

theorem readByte_readD {p : List Byte} {off : Int} (h : (readByte p off).isSome) :
    readByte p off = some (readD p off) := by
  obtain ⟨b, hb⟩ := Option.isSome_iff_exists.mp h
  simp [readD, hb]

theorem block_spec (k : YUV420p2RGBA) (s : Cursor)
    (hU : (readByte k._mu s.u1).isSome) (hV : (readByte k._mv s.v1).isSome)
    (hY00 : (readByte k._my s.y1).isSome)
    (hY01 : (readByte k._my (s.y1 + k._yPixelStride)).isSome)
    (hY10 : (readByte k._my s.y2).isSome)
    (hY11 : (readByte k._my (s.y2 + k._yPixelStride)).isSome)
    (h1 : s.row1 + 8 ≤ s.data.length) (h2 : s.row2 + 8 ≤ s.data.length) :
    ∃ d, k.block s = some
        { row1 := s.row1 + 8, row2 := s.row2 + 8
          y1 := s.y1 + k._yPixelStride + k._yPixelStride
          y2 := s.y2 + k._yPixelStride + k._yPixelStride
          u1 := s.u1 + k._uPixelStride, v1 := s.v1 + k._vPixelStride, data := d } ∧
      d.length = s.data.length ∧
      ∀ i, d[i]? =
        if s.row2 + 4 ≤ i ∧ i < s.row2 + 8 then
          (pixelBytes (readD k._my (s.y2 + k._yPixelStride)) (readD k._mu s.u1)
            (readD k._mv s.v1))[i - (s.row2 + 4)]?
        else if s.row2 ≤ i ∧ i < s.row2 + 4 then
          (pixelBytes (readD k._my s.y2) (readD k._mu s.u1) (readD k._mv s.v1))[i - s.row2]?
        else if s.row1 + 4 ≤ i ∧ i < s.row1 + 8 then
          (pixelBytes (readD k._my (s.y1 + k._yPixelStride)) (readD k._mu s.u1)
            (readD k._mv s.v1))[i - (s.row1 + 4)]?
        else if s.row1 ≤ i ∧ i < s.row1 + 4 then
          (pixelBytes (readD k._my s.y1) (readD k._mu s.u1) (readD k._mv s.v1))[i - s.row1]?
        else s.data[i]? := by
  obtain ⟨d1, e1, l1, g1⟩ := storePixel_spec s.data (s.row1 + 0) (luma (readD k._my s.y1))
    (chroma (readD k._mu s.u1) (readD k._mv s.v1)) (by omega)
  obtain ⟨d2, e2, l2, g2⟩ := storePixel_spec d1 (s.row1 + 4)
    (luma (readD k._my (s.y1 + k._yPixelStride)))
    (chroma (readD k._mu s.u1) (readD k._mv s.v1)) (by omega)
  obtain ⟨d3, e3, l3, g3⟩ := storePixel_spec d2 (s.row2 + 0) (luma (readD k._my s.y2))
    (chroma (readD k._mu s.u1) (readD k._mv s.v1)) (by omega)
  obtain ⟨d4, e4, l4, g4⟩ := storePixel_spec d3 (s.row2 + 4)
    (luma (readD k._my (s.y2 + k._yPixelStride)))
    (chroma (readD k._mu s.u1) (readD k._mv s.v1)) (by omega)
  refine ⟨d4, ?_, by omega, fun i => ?_⟩
  · rw [Nat.add_zero] at e1 e3
    simp [YUV420p2RGBA.block, readByte_readD hU, readByte_readD hV, readByte_readD hY00,
      readByte_readD hY01, readByte_readD hY10, readByte_readD hY11, e1, e2, e3, e4]
  · rw [g4, g3, g2, g1]
    simp only [Nat.add_zero, pixelBytes]

theorem loopN_zero {σ : Type} (body : Nat → σ → Option σ) (s : σ) :
    loopN 0 body s = some s := rfl

theorem loopN_succ {σ : Type} (n : Nat) (body : Nat → σ → Option σ) (s : σ) :
    loopN (n + 1) body s = (loopN n body s).bind (body n) := by
  simp [loopN, List.range_succ, List.foldlM_append]

theorem getElem?_getD {l : List Byte} {j : Nat} (h : j < l.length) :
    l[j]? = some (l.getD j 0) := by
  simp [List.getD, List.getElem?_eq_getElem h]

theorem pixelBytes_length (Y U V : Byte) : (pixelBytes Y U V).length = 4 := rfl

theorem columns_spec (k : YUV420p2RGBA) (N R1 R2 : Nat) (A1 A2 B C : Int) (d0 : List Byte)
    (hR : R1 + 8 * N ≤ R2) (hlen : R2 + 8 * N ≤ d0.length)
    (hY1 : ∀ t, t < 2 * N → (readByte k._my (A1 + (t : Int) * k._yPixelStride)).isSome)
    (hY2 : ∀ t, t < 2 * N → (readByte k._my (A2 + (t : Int) * k._yPixelStride)).isSome)
    (hU : ∀ t, t < N → (readByte k._mu (B + (t : Int) * k._uPixelStride)).isSome)
    (hV : ∀ t, t < N → (readByte k._mv (C + (t : Int) * k._vPixelStride)).isSome) :
    ∀ n, n ≤ N → ∃ d,
      loopN n (fun _ s => k.block s)
          { row1 := R1, row2 := R2, y1 := A1, y2 := A2, u1 := B, v1 := C, data := d0 } =
        some
          { row1 := R1 + 8 * n, row2 := R2 + 8 * n
            y1 := A1 + ((2 * n : Nat) : Int) * k._yPixelStride
            y2 := A2 + ((2 * n : Nat) : Int) * k._yPixelStride
            u1 := B + (n : Int) * k._uPixelStride
            v1 := C + (n : Int) * k._vPixelStride, data := d } ∧
      d.length = d0.length ∧
      ∀ i, d[i]? =
        if R1 ≤ i ∧ i < R1 + 8 * n then some (k.rowBytes A1 B C (i - R1))
        else if R2 ≤ i ∧ i < R2 + 8 * n then some (k.rowBytes A2 B C (i - R2))
        else d0[i]? := by
  intro n
  induction n with
  | zero =>
    intro _
    refine ⟨d0, ?_, rfl, fun i => ?_⟩
    · simp [loopN_zero]
    · have h1 : ¬(R1 ≤ i ∧ i < R1 + 8 * 0) := by omega
      have h2 : ¬(R2 ≤ i ∧ i < R2 + 8 * 0) := by omega
      rw [if_neg h1, if_neg h2]
  | succ n ih =>
    intro hn
    obtain ⟨d, hd, hl, hg⟩ := ih (by omega)
    have ey1 : A1 + ((2 * n : Nat) : Int) * k._yPixelStride + k._yPixelStride =
        A1 + ((2 * n + 1 : Nat) : Int) * k._yPixelStride := by push_cast; ring
    have ey2 : A2 + ((2 * n : Nat) : Int) * k._yPixelStride + k._yPixelStride =
        A2 + ((2 * n + 1 : Nat) : Int) * k._yPixelStride := by push_cast; ring
    obtain ⟨d', hd', hl', hg'⟩ := block_spec k
      { row1 := R1 + 8 * n, row2 := R2 + 8 * n
        y1 := A1 + ((2 * n : Nat) : Int) * k._yPixelStride
        y2 := A2 + ((2 * n : Nat) : Int) * k._yPixelStride
        u1 := B + (n : Int) * k._uPixelStride
        v1 := C + (n : Int) * k._vPixelStride, data := d }
      (hU n (by omega)) (hV n (by omega)) (hY1 (2 * n) (by omega))
      (by rw [ey1]; exact hY1 (2 * n + 1) (by omega))
      (hY2 (2 * n) (by omega))
      (by rw [ey2]; exact hY2 (2 * n + 1) (by omega))
      (by show R1 + 8 * n + 8 ≤ d.length; omega)
      (by show R2 + 8 * n + 8 ≤ d.length; omega)
    refine ⟨d', ?_, hl'.trans hl, fun i => ?_⟩
    · rw [loopN_succ, hd, Option.some_bind, hd']
      simp only [Option.some.injEq, Cursor.mk.injEq, and_true]
      refine ⟨by omega, by omega, ?_, ?_, ?_, ?_⟩
      · push_cast; ring
      · push_cast; ring
      · push_cast; ring
      · push_cast; ring
    · rw [hg' i]
      simp only [ey1, ey2]
      by_cases c1 : R2 + 8 * n + 4 ≤ i ∧ i < R2 + 8 * n + 8
      · rw [if_pos c1, if_neg (by omega), if_pos (by omega),
          getElem?_getD (by rw [pixelBytes_length]; omega)]
        have q1 : (i - R2) / 4 = 2 * n + 1 := by omega
        have q2 : (i - R2) / 8 = n := by omega
        have q3 : (i - R2) % 4 = i - (R2 + 8 * n + 4) := by omega
        simp only [YUV420p2RGBA.rowBytes, q1, q2, q3]
      · rw [if_neg c1]
        by_cases c2 : R2 + 8 * n ≤ i ∧ i < R2 + 8 * n + 4
        · rw [if_pos c2, if_neg (by omega), if_pos (by omega),
            getElem?_getD (by rw [pixelBytes_length]; omega)]
          have q1 : (i - R2) / 4 = 2 * n := by omega
          have q2 : (i - R2) / 8 = n := by omega
          have q3 : (i - R2) % 4 = i - (R2 + 8 * n) := by omega
          simp only [YUV420p2RGBA.rowBytes, q1, q2, q3]
        · rw [if_neg c2]
          by_cases c3 : R1 + 8 * n + 4 ≤ i ∧ i < R1 + 8 * n + 8
          · rw [if_pos c3, if_pos (by omega),
              getElem?_getD (by rw [pixelBytes_length]; omega)]
            have q1 : (i - R1) / 4 = 2 * n + 1 := by omega
            have q2 : (i - R1) / 8 = n := by omega
            have q3 : (i - R1) % 4 = i - (R1 + 8 * n + 4) := by omega
            simp only [YUV420p2RGBA.rowBytes, q1, q2, q3]
          · rw [if_neg c3]
            by_cases c4 : R1 + 8 * n ≤ i ∧ i < R1 + 8 * n + 4
            · rw [if_pos c4, if_pos (by omega),
                getElem?_getD (by rw [pixelBytes_length]; omega)]
              have q1 : (i - R1) / 4 = 2 * n := by omega
              have q2 : (i - R1) / 8 = n := by omega
              have q3 : (i - R1) % 4 = i - (R1 + 8 * n) := by omega
              simp only [YUV420p2RGBA.rowBytes, q1, q2, q3]
            · rw [if_neg c4, hg i]
              by_cases c5 : R1 ≤ i ∧ i < R1 + 8 * n
              · rw [if_pos c5, if_pos (by omega)]
              · rw [if_neg c5]
                by_cases c6 : R2 ≤ i ∧ i < R2 + 8 * n
                · rw [if_pos c6, if_neg (by omega), if_pos (by omega)]
                · rw [if_neg c6, if_neg (by omega), if_neg (by omega)]

theorem row_lt (W r r' t : Nat) (h : r < r') (ht : t < W) : r * W + t < r' * W := by
  have h1 : (r + 1) * W ≤ r' * W := Nat.mul_le_mul_right W h
  rw [Nat.add_mul, Nat.one_mul] at h1
  omega

theorem rowPair_spec (k : YUV420p2RGBA) (out : Mat) (m j : Nat) (hc : out.cols = 2 * m)
    (hlen : out.data.length = out.rows * (4 * out.cols)) (hj : 2 * j + 2 ≤ out.rows)
    (hr : k.Readable (2 * j + 2) out.cols) :
    ∃ d, k.rowPair j out = some { out with data := d } ∧ d.length = out.data.length ∧
      ∀ r t, t < 4 * out.cols →
        d[r * (4 * out.cols) + t]? =
          if r = 2 * j ∨ r = 2 * j + 1 then some (k.expected r t)
          else out.data[r * (4 * out.cols) + t]? := by
  have hW : 4 * out.cols = 8 * m := by omega
  have hR2 : out.ptr (2 * j + 1) = out.ptr (2 * j) + 8 * m := by
    unfold Mat.ptr
    rw [Nat.add_mul, Nat.one_mul, hW]
  have hend : out.ptr (2 * j) + 8 * m + 8 * m ≤ out.data.length := by
    have h1 : (2 * j + 2) * (4 * out.cols) ≤ out.rows * (4 * out.cols) :=
      Nat.mul_le_mul_right _ hj
    rw [Nat.add_mul] at h1
    unfold Mat.ptr
    omega
  have hhalf : (out.cols + 1) / 2 = m := by omega
  obtain ⟨d, hd, hl, hg⟩ := columns_spec k m (out.ptr (2 * j)) (out.ptr (2 * j + 1))
    (2 * (j : Int) * k._yRowStride) (2 * (j : Int) * k._yRowStride + k._yRowStride)
    ((j : Int) * k._uRowStride) ((j : Int) * k._vRowStride) out.data
    (by omega) (by omega)
    (fun t ht => by
      have h := (hr (2 * j) t (by omega) (by omega)).1
      push_cast at h
      exact h)
    (fun t ht => by
      have h := (hr (2 * j + 1) t (by omega) (by omega)).1
      have e : ((2 * j + 1 : Nat) : Int) * k._yRowStride =
          2 * (j : Int) * k._yRowStride + k._yRowStride := by push_cast; ring
      rw [e] at h
      exact h)
    (fun t ht => by
      have h := (hr (2 * j) (2 * t) (by omega) (by omega)).2.1
      have e1 : 2 * j / 2 = j := by omega
      have e2 : 2 * t / 2 = t := by omega
      rw [e1, e2] at h
      exact h)
    (fun t ht => by
      have h := (hr (2 * j) (2 * t) (by omega) (by omega)).2.2
      have e1 : 2 * j / 2 = j := by omega
      have e2 : 2 * t / 2 = t := by omega
      rw [e1, e2] at h
      exact h)
    m (le_refl m)
  refine ⟨d, ?_, hl, fun r t ht => ?_⟩
  · simp [YUV420p2RGBA.rowPair, hhalf, hd]
  · rw [hg]
    rcases Nat.lt_trichotomy r (2 * j) with h | h | h
    · have h1 := row_lt (4 * out.cols) r (2 * j) t h ht
      have h2 : out.ptr (2 * j) = 2 * j * (4 * out.cols) := rfl
      rw [if_neg (by omega), if_neg (by omega), if_neg (by omega)]
    · subst h
      have h2 : out.ptr (2 * j) = 2 * j * (4 * out.cols) := rfl
      rw [if_pos (by omega), if_pos (by omega)]
      have e1 : 2 * j * (4 * out.cols) + t - out.ptr (2 * j) = t := by omega
      have e2 : 2 * j / 2 = j := by omega
      rw [e1]
      unfold YUV420p2RGBA.expected
      rw [e2]
      push_cast
      rfl
    · have h2 : out.ptr (2 * j) = 2 * j * (4 * out.cols) := rfl
      rcases Nat.eq_or_lt_of_le h with h' | h'
      · subst h'
        have h3 : (2 * j).succ * (4 * out.cols) = 2 * j * (4 * out.cols) + 4 * out.cols :=
          Nat.succ_mul _ _
        rw [if_neg (by omega), if_pos (by omega), if_pos (by omega)]
        have e1 : (2 * j).succ * (4 * out.cols) + t - out.ptr (2 * j + 1) = t := by omega
        have e2 : (2 * j).succ / 2 = j := by omega
        have e3 : (((2 * j).succ : Nat) : Int) * k._yRowStride =
            2 * (j : Int) * k._yRowStride + k._yRowStride := by push_cast; ring
        rw [e1]
        unfold YUV420p2RGBA.expected
        rw [e2, e3]
      · have h3 : (2 * j + 2) * (4 * out.cols) ≤ r * (4 * out.cols) :=
          Nat.mul_le_mul_right _ h'
        rw [Nat.add_mul] at h3
        rw [if_neg (by omega), if_neg (by omega), if_neg (by omega)]

theorem Readable.mono {k : YUV420p2RGBA} {R R' C : Nat} (h : k.Readable R C) (hR : R' ≤ R) :
    k.Readable R' C :=
  fun r c hr hc => h r c (by omega) hc

theorem call_steps (k : YUV420p2RGBA) (out : Mat) (m a b : Nat) (hc : out.cols = 2 * m)
    (hlen : out.data.length = out.rows * (4 * out.cols)) (hb : 2 * b ≤ out.rows)
    (hr : k.Readable (2 * b) out.cols) :
    ∀ n, a + n ≤ b → ∃ d,
      loopN n (fun i mat => k.rowPair (a + i) mat) out = some { out with data := d } ∧
      d.length = out.data.length ∧
      ∀ r t, t < 4 * out.cols →
        d[r * (4 * out.cols) + t]? =
          if 2 * a ≤ r ∧ r < 2 * (a + n) then some (k.expected r t)
          else out.data[r * (4 * out.cols) + t]? := by
  intro n
  induction n with
  | zero =>
    intro _
    refine ⟨out.data, rfl, rfl, fun r t _ => ?_⟩
    rw [if_neg (by omega)]
  | succ n ih =>
    intro hn
    obtain ⟨d, hd, hl, hg⟩ := ih (by omega)
    obtain ⟨d', hd', hl', hg'⟩ := rowPair_spec k { out with data := d } m (a + n) hc
      (by show d.length = out.rows * (4 * out.cols); omega)
      (by show 2 * (a + n) + 2 ≤ out.rows; omega)
      (Readable.mono hr (by omega))
    refine ⟨d', ?_, hl'.trans hl, fun r t ht => ?_⟩
    · rw [loopN_succ, hd, Option.some_bind, hd']
    · have h1 := hg' r t ht
      have h2 := hg r t ht
      simp only at h1
      rw [h1]
      by_cases c : r = 2 * (a + n) ∨ r = 2 * (a + n) + 1
      · rw [if_pos c, if_pos (by omega)]
      · rw [if_neg c, h2]
        by_cases c' : 2 * a ≤ r ∧ r < 2 * (a + n)
        · rw [if_pos c', if_pos (by omega)]
        · rw [if_neg c', if_neg (by omega)]

/-- The effect of one invocation of the loop body on a band `[a, b)`: it succeeds, rows
`2a .. 2b-1` hold the converted bytes and every other row is unchanged. -/
theorem call_spec (k : YUV420p2RGBA) (out : Mat) (m : Nat) (band : Range)
    (hc : out.cols = 2 * m) (hlen : out.data.length = out.rows * (4 * out.cols))
    (hab : band.start ≤ band.stop) (hb : 2 * band.stop ≤ out.rows)
    (hr : k.Readable (2 * band.stop) out.cols) :
    ∃ d, k.call band out = some { out with data := d } ∧ d.length = out.data.length ∧
      ∀ r t, t < 4 * out.cols →
        d[r * (4 * out.cols) + t]? =
          if 2 * band.start ≤ r ∧ r < 2 * band.stop then some (k.expected r t)
          else out.data[r * (4 * out.cols) + t]? := by
  obtain ⟨d, hd, hl, hg⟩ := call_steps k out m band.start band.stop hc hlen hb hr
    (band.stop - band.start) (by omega)
  refine ⟨d, hd, hl, fun r t ht => ?_⟩
  rw [hg r t ht]
  have e : band.start + (band.stop - band.start) = band.stop := by omega
  rw [e]

/-- The effect of running the loop body once per band, for bands inside the image, in
any number and order: it succeeds, the rows of the bands hold the converted bytes and
every other row is unchanged. -/
theorem runBands_spec (k : YUV420p2RGBA) (m rows : Nat) (bands : List Range) :
    ∀ out : Mat, out.cols = 2 * m → out.rows = rows →
      out.data.length = out.rows * (4 * out.cols) →
      (∀ band ∈ bands, band.start ≤ band.stop ∧ 2 * band.stop ≤ rows) →
      k.Readable rows (2 * m) →
      ∃ d, k.runBands bands out = some { out with data := d } ∧
        d.length = out.data.length ∧
        ∀ r t, t < 4 * out.cols →
          d[r * (4 * out.cols) + t]? =
            if bands.any (fun b => b.contains (r / 2)) then some (k.expected r t)
            else out.data[r * (4 * out.cols) + t]? := by
  induction bands with
  | nil =>
    intro out _ _ _ _ _
    exact ⟨out.data, rfl, rfl, fun r t _ => by simp⟩
  | cons band rest ih =>
    intro out hc hrows hlen hbands hr
    have hband := hbands band (List.mem_cons_self _ _)
    obtain ⟨d, hd, hl, hg⟩ := call_spec k out m band hc hlen hband.1 (by omega)
      (Readable.mono (by rw [hc]; exact hr) (by omega))
    obtain ⟨d', hd', hl', hg'⟩ := ih { out with data := d } hc hrows
      (by show d.length = out.rows * (4 * out.cols); omega)
      (fun b hb => hbands b (List.mem_cons_of_mem _ hb)) hr
    refine ⟨d', ?_, hl'.trans hl, fun r t ht => ?_⟩
    · unfold YUV420p2RGBA.runBands at hd' ⊢
      simp only [List.foldlM_cons, hd, Option.bind_eq_bind, Option.some_bind]
      exact hd'
    · have h1 := hg' r t ht
      simp only at h1
      rw [h1, hg r t ht, List.any_cons]
      by_cases c : rest.any (fun b => b.contains (r / 2)) = true
      · rw [if_pos c, if_pos (by simp [c])]
      · rw [if_neg c]
        by_cases c' : 2 * band.start ≤ r ∧ r < 2 * band.stop
        · have : band.contains (r / 2) = true := by
            unfold Range.contains
            simp only [decide_eq_true_eq]
            omega
          rw [if_pos c', if_pos (by simp [this])]
        · have : ¬ (band.contains (r / 2) = true) := by
            unfold Range.contains
            simp only [decide_eq_true_eq]
            omega
          rw [if_neg c', if_neg (by simp [this, c])]

/-! ## The entry point -/

theorem readByte_isSome {p : List Byte} {off : Int} (h0 : 0 ≤ off) (h1 : off < p.length) :
    (readByte p off).isSome := by
  unfold readByte
  rw [if_pos h0]
  have h : off.toNat < p.length := by omega
  simp [List.getElem?_eq_getElem h]

theorem offset_bounds (rs ps : Int) (H W r c : Nat) (hrs : 0 < rs) (hps : 0 < ps)
    (hr : r < H) (hc : c < W) :
    0 ≤ (r : Int) * rs + (c : Int) * ps ∧
      (r : Int) * rs + (c : Int) * ps ≤ rs * ((H : Int) - 1) + ps * ((W : Int) - 1) := by
  have h1 : (0 : Int) ≤ (r : Int) * rs := by positivity
  have h2 : (0 : Int) ≤ (c : Int) * ps := by positivity
  have h3 : (r : Int) * rs ≤ ((H : Int) - 1) * rs :=
    Int.mul_le_mul_of_nonneg_right (by omega) (le_of_lt hrs)
  have h4 : (c : Int) * ps ≤ ((W : Int) - 1) * ps :=
    Int.mul_le_mul_of_nonneg_right (by omega) (le_of_lt hps)
  rw [mul_comm rs, mul_comm ps]
  omega

theorem Covers.isSome {p : HostPlane} {H W : Nat} (h : p.Covers (H : Int) (W : Int))
    {r c : Nat} (hr : r < H) (hc : c < W) :
    (readByte p.buffer ((r : Int) * p.getRowStride + (c : Int) * p.getPixelStride)).isSome := by
  obtain ⟨hps, hrs, hlen⟩ := h
  have hb := offset_bounds p.getRowStride p.getPixelStride H W r c hrs hps hr hc
  exact readByte_isSome hb.1 (by omega)

theorem WellFormed.readable {image : HostImage} (hwf : image.WellFormed)
    (hw : 0 < image.getWidth) (hh : 0 < image.getHeight) :
    image.kernel.Readable image.getHeight.toNat image.getWidth.toNat := by
  obtain ⟨hw2, hh2, hY, hU, hV, _⟩ := hwf
  have eH : image.getHeight = ((image.getHeight.toNat : Nat) : Int) := by omega
  have eW : image.getWidth = ((image.getWidth.toNat : Nat) : Int) := by omega
  have eH2 : image.getHeight / 2 = ((image.getHeight.toNat / 2 : Nat) : Int) := by omega
  have eW2 : image.getWidth / 2 = ((image.getWidth.toNat / 2 : Nat) : Int) := by omega
  rw [eH, eW] at hY
  rw [eH2, eW2] at hU hV
  intro r c hr hc
  exact ⟨Covers.isSome hY hr hc, Covers.isSome hU (by omega) (by omega),
    Covers.isSome hV (by omega) (by omega)⟩

theorem any_of_filter_length {α : Type} (p : α → Bool) (l : List α)
    (h : (l.filter p).length = 1) : l.any p = true := by
  have hpos : 0 < (l.filter p).length := by omega
  obtain ⟨x, hx⟩ := List.exists_mem_of_length_pos hpos
  rw [List.mem_filter] at hx
  exact List.any_eq_true.mpr ⟨x, hx.1, hx.2⟩

theorem Mat.create_length (rows cols : Int) (fresh : Nat → Byte) :
    (Mat.create rows cols fresh).data.length =
      (Mat.create rows cols fresh).rows * (4 * (Mat.create rows cols fresh).cols) := by
  simp [Mat.create]

theorem acquire_eq {image : HostImage} (hp : 3 ≤ image.getPlanes.length) :
    acquire image = some image.yuvInfo := by
  rcases hg : image.getPlanes with _ | ⟨a, _ | ⟨b, _ | ⟨c, rest⟩⟩⟩
  · rw [hg] at hp
    simp at hp
  · rw [hg] at hp
    simp at hp
  · rw [hg] at hp
    simp at hp
  · simp [acquire, HostImage.yuvInfo, HostImage.planes0, HostImage.planes1,
      HostImage.planes2, hg]

theorem acquire_none {image : HostImage} (hp : image.getPlanes.length < 3) :
    acquire image = none := by
  rcases hg : image.getPlanes with _ | ⟨a, _ | ⟨b, _ | ⟨c, rest⟩⟩⟩
  · simp [acquire, hg]
  · simp [acquire, hg]
  · simp [acquire, hg]
  · rw [hg] at hp
    simp only [List.length_cons] at hp
    omega

theorem YUV2BGRA_accept (split : Range → List Range) (fresh : Nat → Byte)
    (image : HostImage) (hw : 0 < image.getWidth) (hh : 0 < image.getHeight)
    (hf : image.getFormat = 35) (hp : 3 ≤ image.getPlanes.length) :
    YUV2BGRA split fresh image =
      image.kernel.runBands (split ⟨0, image.getHeight.toNat / 2⟩)
        (Mat.create image.getHeight image.getWidth fresh) := by
  unfold YUV2BGRA
  simp only [acquire_eq hp, hf, Option.bind_eq_bind, Option.some_bind]
  rw [if_neg (by omega)]
  rfl

/-- The conversion of a well-formed frame succeeds, and byte `t` of row `r` of the
result is the expected one. -/
theorem YUV2BGRA_spec (split : Range → List Range) (fresh : Nat → Byte) (image : HostImage)
    (hw : 0 < image.getWidth) (hh : 0 < image.getHeight) (hf : image.getFormat = 35)
    (hwf : image.WellFormed) (hs : ValidSplit split image) :
    ∃ d, YUV2BGRA split fresh image =
        some ⟨image.getHeight.toNat, image.getWidth.toNat, d⟩ ∧
      d.length = image.getHeight.toNat * (4 * image.getWidth.toNat) ∧
      ∀ r t, r < image.getHeight.toNat → t < 4 * image.getWidth.toNat →
        d[r * (4 * image.getWidth.toNat) + t]? = some (image.kernel.expected r t) := by
  have hW : image.getWidth.toNat = 2 * (image.getWidth.toNat / 2) := by
    have := hwf.1
    omega
  have hH : image.getHeight.toNat = 2 * (image.getHeight.toNat / 2) := by
    have := hwf.2.1
    omega
  obtain ⟨d, hd, hl, hg⟩ := runBands_spec image.kernel (image.getWidth.toNat / 2)
    image.getHeight.toNat (split ⟨0, image.getHeight.toNat / 2⟩)
    (Mat.create image.getHeight image.getWidth fresh) hW rfl (Mat.create_length _ _ _)
    (fun band hb => by
      have := hs.1 band hb
      simp only at this
      omega)
    (by rw [← hW]; exact WellFormed.readable hwf hw hh)
  refine ⟨d, ?_, ?_, fun r t hr ht => ?_⟩
  · rw [YUV2BGRA_accept split fresh image hw hh hf hwf.2.2.2.2.2, hd]
    rfl
  · rw [hl, Mat.create_length]
    rfl
  · have h1 := hg r t ht
    have h2 : (split ⟨0, image.getHeight.toNat / 2⟩).any (fun b => b.contains (r / 2)) = true :=
      any_of_filter_length _ _ (hs.2 (r / 2) (Nat.zero_le _) (by simp only; omega))
    rw [if_pos h2] at h1
    exact h1

theorem ext_rows {d1 d2 : List Byte} {H W : Nat} (h1 : d1.length = H * W)
    (h2 : d2.length = H * W)
    (h : ∀ r t, r < H → t < W → d1[r * W + t]? = d2[r * W + t]?) : d1 = d2 := by
  apply List.ext_getElem?
  intro i
  by_cases hi : i < H * W
  · have hW : 0 < W := by
      rcases Nat.eq_zero_or_pos W with h0 | h0
      · rw [h0, Nat.mul_zero] at hi
        omega
      · exact h0
    have hr : i / W < H := by
      apply Nat.div_lt_of_lt_mul
      rw [Nat.mul_comm]
      exact hi
    have e : i / W * W + i % W = i := by
      rw [Nat.mul_comm]
      exact Nat.div_add_mod i W
    have := h (i / W) (i % W) hr (Nat.mod_lt _ hW)
    rw [e] at this
    exact this
  · rw [List.getElem?_eq_none (by omega), List.getElem?_eq_none (by omega)]

theorem pixel_of_getElem {m : Mat} {r c : Nat} {l : List Byte} (hl : l.length = 4)
    (h : ∀ i, i < 4 → m.data[r * (4 * m.cols) + (4 * c + i)]? = l[i]?) :
    m.pixel r c = l := by
  apply List.ext_getElem?
  intro i
  unfold Mat.pixel Mat.ptr
  by_cases hi : i < 4
  · rw [List.getElem?_take_of_lt hi, List.getElem?_drop, ← h i hi]
    congr 1
    omega
  · rw [List.getElem?_eq_none (by rw [List.length_take]; omega),
      List.getElem?_eq_none (by omega)]

theorem expected_pixel (k : YUV420p2RGBA) (r c i : Nat) (hi : i < 4) :
    some (k.expected r (4 * c + i)) =
      (pixelBytes
        (readD k._my ((r : Int) * k._yRowStride + (c : Int) * k._yPixelStride))
        (readD k._mu (((r / 2 : Nat) : Int) * k._uRowStride +
          ((c / 2 : Nat) : Int) * k._uPixelStride))
        (readD k._mv (((r / 2 : Nat) : Int) * k._vRowStride +
          ((c / 2 : Nat) : Int) * k._vPixelStride)))[i]? := by
  have q1 : (4 * c + i) / 4 = c := by omega
  have q2 : (4 * c + i) / 8 = c / 2 := by omega
  have q3 : (4 * c + i) % 4 = i := by omega
  unfold YUV420p2RGBA.expected YUV420p2RGBA.rowBytes
  rw [q1, q2, q3, getElem?_getD (by rw [pixelBytes_length]; exact hi)]

/-- The conversion of a well-formed frame succeeds with an image of `height` rows and
`width` columns, and the pixel at `(r, c)` holds the bytes computed from the luma sample
at `(r, c)` and the chroma samples at `(r / 2, c / 2)`. -/
theorem YUV2BGRA_pixels (split : Range → List Range) (fresh : Nat → Byte) (image : HostImage)
    (hw : 0 < image.getWidth) (hh : 0 < image.getHeight) (hf : image.getFormat = 35)
    (hwf : image.WellFormed) (hs : ValidSplit split image) :
    ∃ m, YUV2BGRA split fresh image = some m ∧
      m.rows = image.getHeight.toNat ∧ m.cols = image.getWidth.toNat ∧
      m.data.length = m.rows * (4 * m.cols) ∧
      ∀ r c, r < m.rows → c < m.cols →
        m.pixel r c =
          pixelBytes
            (readD image.planes0.buffer
              ((r : Int) * image.planes0.getRowStride + (c : Int) * image.planes0.getPixelStride))
            (readD image.planes1.buffer
              (((r / 2 : Nat) : Int) * image.planes1.getRowStride +
                ((c / 2 : Nat) : Int) * image.planes1.getPixelStride))
            (readD image.planes2.buffer
              (((r / 2 : Nat) : Int) * image.planes2.getRowStride +
                ((c / 2 : Nat) : Int) * image.planes2.getPixelStride)) := by
  obtain ⟨d, hd, hl, hg⟩ := YUV2BGRA_spec split fresh image hw hh hf hwf hs
  refine ⟨_, hd, rfl, rfl, hl, fun r c hr hc => ?_⟩
  apply pixel_of_getElem (pixelBytes_length _ _ _)
  intro i hi
  have h1 := hg r (4 * c + i) hr (by simp only at hc; omega)
  simp only
  rw [h1, expected_pixel image.kernel r c i hi]
  rfl

/-- The result of converting a well-formed frame depends neither on the executor's
bands nor on the initial content of the output buffer. -/
theorem YUV2BGRA_unique (split split' : Range → List Range) (fresh fresh' : Nat → Byte)
    (image : HostImage) (hw : 0 < image.getWidth) (hh : 0 < image.getHeight)
    (hf : image.getFormat = 35) (hwf : image.WellFormed) (hs : ValidSplit split image)
    (hs' : ValidSplit split' image) :
    YUV2BGRA split fresh image = YUV2BGRA split' fresh' image := by
  obtain ⟨d, hd, hl, hg⟩ := YUV2BGRA_spec split fresh image hw hh hf hwf hs
  obtain ⟨d', hd', hl', hg'⟩ := YUV2BGRA_spec split' fresh' image hw hh hf hwf hs'
  rw [hd, hd']
  have : d = d' := ext_rows hl hl' (fun r t hr ht => by rw [hg r t hr ht, hg' r t hr ht])
  rw [this]

/-! ## Dimensions are preserved by every successful run -/

theorem writeByte_length {d d' : List Byte} {p : Nat} {b : Byte}
    (h : writeByte d p b = some d') : d'.length = d.length := by
  unfold writeByte at h
  split_ifs at h
  simp only [Option.some.injEq] at h
  rw [← h, List.length_set]

theorem storePixel_length {d d' : List Byte} {p : Nat} {y : Int} {c : Chroma}
    (h : storePixel d p y c = some d') : d'.length = d.length := by
  simp only [storePixel, Option.bind_eq_bind, Option.bind_eq_some] at h
  obtain ⟨d1, h1, d2, h2, d3, h3, h4⟩ := h
  rw [writeByte_length h4, writeByte_length h3, writeByte_length h2, writeByte_length h1]

theorem block_length {k : YUV420p2RGBA} {s s' : Cursor} (h : k.block s = some s') :
    s'.data.length = s.data.length := by
  simp only [YUV420p2RGBA.block, Option.bind_eq_bind, Option.bind_eq_some, Option.pure_def,
    Option.some.injEq] at h
  obtain ⟨_, _, _, _, _, _, d1, h1, _, _, d2, h2, _, _, d3, h3, _, _, d4, h4, rfl⟩ := h
  show d4.length = s.data.length
  rw [storePixel_length h4, storePixel_length h3, storePixel_length h2, storePixel_length h1]

theorem loopN_preserves {σ : Type} (I : σ → Prop) (body : Nat → σ → Option σ)
    (hbody : ∀ i s s', I s → body i s = some s' → I s') :
    ∀ n s s', I s → loopN n body s = some s' → I s' := by
  intro n
  induction n with
  | zero =>
    intro s s' hI h
    rw [loopN_zero, Option.some.injEq] at h
    exact h ▸ hI
  | succ n ih =>
    intro s s' hI h
    rw [loopN_succ, Option.bind_eq_some] at h
    obtain ⟨s1, h1, h2⟩ := h
    exact hbody n s1 s' (ih s s1 hI h1) h2

theorem rowPair_shape {k : YUV420p2RGBA} {j : Nat} {out m : Mat}
    (h : k.rowPair j out = some m) : SameShape out m := by
  simp only [YUV420p2RGBA.rowPair, Option.bind_eq_bind, Option.bind_eq_some, Option.pure_def,
    Option.some.injEq] at h
  obtain ⟨s, hs, rfl⟩ := h
  refine ⟨rfl, rfl, ?_⟩
  exact loopN_preserves (fun c => c.data.length = out.data.length) _
    (fun _ _ _ h1 h2 => (block_length h2).trans h1) _ _ _ rfl hs

theorem call_shape {k : YUV420p2RGBA} {band : Range} {out m : Mat}
    (h : k.call band out = some m) : SameShape out m :=
  loopN_preserves (fun x => SameShape out x) _
    (fun _ _ _ h1 h2 => by
      obtain ⟨a, b, c⟩ := rowPair_shape h2
      exact ⟨a.trans h1.1, b.trans h1.2.1, c.trans h1.2.2⟩) _ _ _ ⟨rfl, rfl, rfl⟩ h

theorem runBands_shape (k : YUV420p2RGBA) (bands : List Range) :
    ∀ out m : Mat, k.runBands bands out = some m → SameShape out m := by
  induction bands with
  | nil =>
    intro out m h
    simp only [YUV420p2RGBA.runBands, List.foldlM_nil, Option.pure_def, Option.some.injEq] at h
    exact h ▸ ⟨rfl, rfl, rfl⟩
  | cons band rest ih =>
    intro out m h
    simp only [YUV420p2RGBA.runBands, List.foldlM_cons, Option.bind_eq_bind,
      Option.bind_eq_some] at h
    obtain ⟨m1, h1, h2⟩ := h
    obtain ⟨a, b, c⟩ := call_shape h1
    obtain ⟨a', b', c'⟩ := ih m1 m h2
    exact ⟨a'.trans a, b'.trans b, c'.trans c⟩

theorem whole_valid (image : HostImage) : ValidSplit whole image := by
  refine ⟨fun band hb => ?_, fun j h1 h2 => ?_⟩
  · simp only [whole, List.mem_singleton] at hb
    subst hb
    exact ⟨le_refl _, Nat.zero_le _, le_refl _⟩
  · have : Range.contains ⟨0, image.getHeight.toNat / 2⟩ j = true := by
      simp only [Range.contains, decide_eq_true_eq]
      exact ⟨h1, h2⟩
    simp [whole, List.filter_cons, this]

/-! ## C1: channel order -/

/-- C1, as stated, fails: for `Y = 16`, `U = 128`, `V = 255` the loop body stores the bytes
`0, 0, 203, 255`, whereas red, green, blue, alpha would be `203, 0, 0, 255`; the
conversion of `redFrame` stores those bytes for its first pixel. So the stored order is
not R, G, B, A. -/
theorem stored_order_is_not_RGBA :
    bytesToInt (pixelBytes 16 128 255) = [0, 0, 203, 255] ∧
    [specR 16 255, specG 16 128 255, specB 16 128, 255] = [203, 0, 0, 255] ∧
    (YUV2BGRA whole (fun _ => 0) redFrame).map (fun m => bytesToInt (m.pixel 0 0)) =
      some [0, 0, 203, 255] ∧
    ¬ ∀ Y U V : Byte, bytesToInt (pixelBytes Y U V) =
      [specR (toInt Y) (toInt V), specG (toInt Y) (toInt U) (toInt V),
        specB (toInt Y) (toInt U), 255] := by
  refine ⟨by decide, by decide, by decide, fun h => ?_⟩
  exact absurd (h 16 128 255) (by decide)

/-- C1, amended: for all bytes `Y`, `U`, `V` the four bytes the loop body stores for a
pixel are, in order, byte0 = B = `sat((y + bias + 2116026*u) >> 20)`,
byte1 = G = `sat((y + bias - 852492*v - 409993*u) >> 20)`,
byte2 = R = `sat((y + bias + 1673527*v) >> 20)` and byte3 = A = 255: the packed channel
order is B, G, R, A. -/
theorem stored_order_is_BGRA (Y U V : Byte) :
    bytesToInt (pixelBytes Y U V) =
      [specB (toInt Y) (toInt U), specG (toInt Y) (toInt U) (toInt V),
        specR (toInt Y) (toInt V), 255] :=
  pixelBytes_eq Y U V

/-! ## C2: the samples of a pixel -/

/-- C2: for every frame with even width and height and positive strides (planes covering
the frame) and every position `(r, c)` of the frame, the pixel the full conversion writes
at `(r, c)` is computed from the luma byte at offset `r*yRowStride + c*yPixelStride`, the
U byte at offset `(r/2)*uRowStride + (c/2)*uPixelStride` and the V byte at offset
`(r/2)*vRowStride + (c/2)*vPixelStride`: its colour bytes are the luma term of that luma
byte combined with the chrominance terms `ruv`, `guv`, `buv` of those two chroma bytes,
which are the same for the four pixels of a 2×2 block. -/
theorem pixel_samples (split : Range → List Range) (fresh : Nat → Byte) (image : HostImage)
    (hw : 0 < image.getWidth) (hh : 0 < image.getHeight) (hf : image.getFormat = 35)
    (hwf : image.WellFormed) (hs : ValidSplit split image) :
    ∃ m, YUV2BGRA split fresh image = some m ∧
      ∀ r c, r < image.getHeight.toNat → c < image.getWidth.toNat →
        ∃ Y U V,
          readByte image.planes0.buffer
            ((r : Int) * image.planes0.getRowStride +
              (c : Int) * image.planes0.getPixelStride) = some Y ∧
          readByte image.planes1.buffer
            (((r / 2 : Nat) : Int) * image.planes1.getRowStride +
              ((c / 2 : Nat) : Int) * image.planes1.getPixelStride) = some U ∧
          readByte image.planes2.buffer
            (((r / 2 : Nat) : Int) * image.planes2.getRowStride +
              ((c / 2 : Nat) : Int) * image.planes2.getPixelStride) = some V ∧
          m.pixel r c =
            [channel (luma Y) (chroma U V).buv, channel (luma Y) (chroma U V).guv,
              channel (luma Y) (chroma U V).ruv, 0xff] := by
  obtain ⟨m, hm, hrows, hcols, _, hpix⟩ :=
    YUV2BGRA_pixels split fresh image hw hh hf hwf hs
  refine ⟨m, hm, fun r c hr hc => ?_⟩
  obtain ⟨hY, hU, hV⟩ := WellFormed.readable hwf hw hh r c hr hc
  exact ⟨_, _, _, readByte_readD hY, readByte_readD hU, readByte_readD hV,
    hpix r c (by omega) (by omega)⟩

theorem pixel_samples_witness :
    frame44.WellFormed ∧ ValidSplit perRowReversed frame44 ∧
    ∃ m, YUV2BGRA perRowReversed (fun _ => 0) frame44 = some m ∧
      ∀ r c, r < frame44.getHeight.toNat → c < frame44.getWidth.toNat →
        ∃ Y U V,
          readByte frame44.planes0.buffer
            ((r : Int) * frame44.planes0.getRowStride +
              (c : Int) * frame44.planes0.getPixelStride) = some Y ∧
          readByte frame44.planes1.buffer
            (((r / 2 : Nat) : Int) * frame44.planes1.getRowStride +
              ((c / 2 : Nat) : Int) * frame44.planes1.getPixelStride) = some U ∧
          readByte frame44.planes2.buffer
            (((r / 2 : Nat) : Int) * frame44.planes2.getRowStride +
              ((c / 2 : Nat) : Int) * frame44.planes2.getPixelStride) = some V ∧
          m.pixel r c =
            [channel (luma Y) (chroma U V).buv, channel (luma Y) (chroma U V).guv,
              channel (luma Y) (chroma U V).ruv, 0xff] :=
  have hwf : frame44.WellFormed := by
    unfold HostImage.WellFormed HostPlane.Covers
    decide
  have hs : ValidSplit perRowReversed frame44 :=
    ⟨by decide, fun j _ hj => by
      have hj' : j < 2 := hj
      interval_cases j <;> rfl⟩
  ⟨hwf, hs, pixel_samples perRowReversed (fun _ => 0) frame44 (by decide) (by decide)
    (by decide) hwf hs⟩

/-! ## C3: rejection -/

/-- For an image that has its three planes, `YUV2BGRA` returns the empty image exactly
when `width ≤ 0`, `height ≤ 0` or the format code is not 35; in every other case a result
has exactly `height` rows and `width` columns of 4 bytes, and for a well-formed frame
there is a result. -/
theorem rejects_with_three_planes (split : Range → List Range) (fresh : Nat → Byte)
    (image : HostImage) (hp : 3 ≤ image.getPlanes.length) :
    (YUV2BGRA split fresh image = some Mat.empty ↔
      (image.getWidth ≤ 0 ∨ image.getHeight ≤ 0 ∨ image.getFormat ≠ 35)) ∧
    (¬ (image.getWidth ≤ 0 ∨ image.getHeight ≤ 0 ∨ image.getFormat ≠ 35) →
      (∀ m, YUV2BGRA split fresh image = some m →
        m.rows = image.getHeight.toNat ∧ m.cols = image.getWidth.toNat ∧
        m.data.length = image.getHeight.toNat * (image.getWidth.toNat * 4)) ∧
      (image.WellFormed → ValidSplit split image →
        ∃ m, YUV2BGRA split fresh image = some m)) := by
  have key : ¬ (image.getWidth ≤ 0 ∨ image.getHeight ≤ 0 ∨ image.getFormat ≠ 35) →
      ∀ m, YUV2BGRA split fresh image = some m →
        m.rows = image.getHeight.toNat ∧ m.cols = image.getWidth.toNat ∧
        m.data.length = image.getHeight.toNat * (image.getWidth.toNat * 4) := by
    intro hv m hm
    have hw : 0 < image.getWidth := by omega
    have hh : 0 < image.getHeight := by omega
    have hf : image.getFormat = 35 := by
      by_contra hne
      exact hv (Or.inr (Or.inr hne))
    rw [YUV2BGRA_accept split fresh image hw hh hf hp] at hm
    obtain ⟨h1, h2, h3⟩ := runBands_shape _ _ _ _ hm
    refine ⟨h1, h2, ?_⟩
    rw [h3, Mat.create_length]
    show image.getHeight.toNat * (4 * image.getWidth.toNat) = _
    rw [Nat.mul_comm 4]
  refine ⟨⟨fun he => ?_, fun hrej => ?_⟩, fun hv => ⟨key hv, fun hwf hs => ?_⟩⟩
  · by_contra hv
    have h := (key hv Mat.empty he).1
    have h0 : Mat.empty.rows = 0 := rfl
    omega
  · unfold YUV2BGRA
    simp only [acquire_eq hp, Option.bind_eq_bind, Option.some_bind]
    by_cases h1 : image.getWidth ≤ 0 ∨ image.getHeight ≤ 0
    · simp only [h1, if_true]
    · have hf : image.getFormat ≠ 35 := by
        rcases hrej with h | h | h
        · exact absurd (Or.inl h) h1
        · exact absurd (Or.inr h) h1
        · exact h
      simp [h1, hf]
  · have hw : 0 < image.getWidth := by omega
    have hh : 0 < image.getHeight := by omega
    have hf : image.getFormat = 35 := by
      by_contra hne
      exact hv (Or.inr (Or.inr hne))
    obtain ⟨d, hd, _⟩ := YUV2BGRA_spec split fresh image hw hh hf hwf hs
    exact ⟨_, hd⟩

/-- C3, on the code: `jpegImage` has format code 256, not 35, so the claim has `YUV2BGRA`
return the empty image for it. Its array of planes has one element, and lines 146-155
fetch and use the planes 0, 1 and 2 before the tests of lines 157-163: the acquisition
aborts and the call returns nothing, whatever the executor and the initial memory, in
particular not the empty image. An image of another format than 35 that has three planes
(`yuv422Image`, format 39) does reach the tests and is answered with the empty image; an
image with fewer than three planes never is. -/
theorem jpeg_image_aborts :
    jpegImage.getFormat ≠ 35 ∧ jpegImage.getPlanes.length = 1 ∧
    acquire jpegImage = none ∧
    (∀ split fresh, YUV2BGRA split fresh jpegImage = none) ∧
    (∀ split fresh, YUV2BGRA split fresh jpegImage ≠ some Mat.empty) ∧
    (∀ split fresh, YUV2BGRA split fresh yuv422Image = some Mat.empty) ∧
    (∀ (image : HostImage) split fresh, image.getPlanes.length < 3 →
      YUV2BGRA split fresh image = none) := by
  have h1 : ∀ split fresh, YUV2BGRA split fresh jpegImage = none := fun _ _ => rfl
  refine ⟨by decide, rfl, rfl, h1, fun split fresh h => ?_, fun _ _ => rfl,
    fun image split fresh hp => ?_⟩
  · rw [h1 split fresh] at h
    exact Option.noConfusion h
  · unfold YUV2BGRA
    simp only [acquire_none hp, Option.bind_eq_bind, Option.none_bind]

/-! ## C4: the result is fully populated -/

/-- C4, as stated, fails: `oddFrame` (width 2, height 3, format 35) passes the validation,
the loop body runs over the row pairs `[0, 1)` only, and row 2 of the result keeps the
initial content of the buffer (7, respectively 9, below). -/
theorem odd_height_not_populated :
    (0 < oddFrame.getWidth ∧ 0 < oddFrame.getHeight ∧ oddFrame.getFormat = 35) ∧
    YUV2BGRA whole (fun _ => 7) oddFrame =
      some ⟨3, 2, List.replicate 16 255 ++ List.replicate 8 7⟩ ∧
    YUV2BGRA whole (fun _ => 9) oddFrame =
      some ⟨3, 2, List.replicate 16 255 ++ List.replicate 8 9⟩ ∧
    ¬ ∀ (image : HostImage) (fresh fresh' : Nat → Byte),
      0 < image.getWidth → 0 < image.getHeight → image.getFormat = 35 →
      YUV2BGRA whole fresh image = YUV2BGRA whole fresh' image := by
  refine ⟨by decide, by decide, by decide, fun h => ?_⟩
  exact absurd (h oddFrame (fun _ => 7) (fun _ => 9) (by decide) (by decide) (by decide))
    (by decide)

/-- C4, amended: for every input that passes the validation and is a frame of even
width and height with planes covering it, the returned image has `height` rows and
`width` columns and is fully populated: it is the same image whatever the initial
content of the allocated buffer, so no byte of it keeps that content. -/
theorem even_frame_populated (split : Range → List Range) (image : HostImage)
    (hw : 0 < image.getWidth) (hh : 0 < image.getHeight) (hf : image.getFormat = 35)
    (hwf : image.WellFormed) (hs : ValidSplit split image) :
    ∃ m, (∀ fresh, YUV2BGRA split fresh image = some m) ∧
      m.rows = image.getHeight.toNat ∧ m.cols = image.getWidth.toNat ∧
      m.data.length = m.rows * (4 * m.cols) := by
  obtain ⟨m, hm, hrows, hcols, hlen, _⟩ :=
    YUV2BGRA_pixels split (fun _ => 0) image hw hh hf hwf hs
  refine ⟨m, fun fresh => ?_, hrows, hcols, hlen⟩
  rw [YUV2BGRA_unique split split fresh (fun _ => 0) image hw hh hf hwf hs hs, hm]

theorem even_frame_populated_witness :
    (0 < frame44.getWidth ∧ 0 < frame44.getHeight ∧ frame44.getFormat = 35) ∧
    frame44.WellFormed ∧ ValidSplit whole frame44 ∧
    ∃ m, (∀ fresh, YUV2BGRA whole fresh frame44 = some m) ∧
      m.rows = frame44.getHeight.toNat ∧ m.cols = frame44.getWidth.toNat ∧
      m.data.length = m.rows * (4 * m.cols) :=
  have hwf : frame44.WellFormed := by
    unfold HostImage.WellFormed HostPlane.Covers
    decide
  ⟨by decide, hwf, whole_valid frame44,
    even_frame_populated whole frame44 (by decide) (by decide) (by decide) hwf
      (whole_valid frame44)⟩

/-! ## C5: independence of the bands -/

/-- C5: for fixed planes, strides and dimensions (width and height even, planes
covering the frame), and for every partition of the row-pair range `[0, height/2)` into
contiguous bands listed in any order, running the loop body once per band in that order
succeeds and yields the very image that one run on the single band `[0, height/2)`
yields. -/
theorem bands_independent (k : YUV420p2RGBA) (out : Mat) (bands : List Range)
    (hc : out.cols % 2 = 0) (hrows : out.rows % 2 = 0)
    (hlen : out.data.length = out.rows * (4 * out.cols))
    (hr : k.Readable out.rows out.cols) (hp : IsPartition bands ⟨0, out.rows / 2⟩) :
    k.runBands bands out = k.call ⟨0, out.rows / 2⟩ out ∧
      (k.call ⟨0, out.rows / 2⟩ out).isSome := by
  have hcols : out.cols = 2 * (out.cols / 2) := by omega
  obtain ⟨d, hd, hl, hg⟩ := runBands_spec k (out.cols / 2) out.rows bands out hcols rfl hlen
    (fun band hb => by
      have := hp.1 band hb
      simp only at this
      omega)
    (by rw [← hcols]; exact hr)
  obtain ⟨d', hd', hl', hg'⟩ := call_spec k out (out.cols / 2) ⟨0, out.rows / 2⟩ hcols hlen
    (Nat.zero_le _) (by simp only; omega) (Readable.mono hr (by simp only; omega))
  have e : d = d' := by
    apply ext_rows (hl.trans hlen) (hl'.trans hlen)
    intro r t hr' ht
    have h2 : bands.any (fun b => b.contains (r / 2)) = true :=
      any_of_filter_length _ _ (hp.2 (r / 2) (Nat.zero_le _) (by simp only; omega))
    rw [hg r t ht, hg' r t ht, if_pos h2, if_pos (by simp only; omega)]
  rw [hd, hd', e]
  exact ⟨rfl, rfl⟩

theorem bands_independent_witness :
    IsPartition (perRowReversed ⟨0, 2⟩) ⟨0, (Mat.create 4 4 (fun _ => 0)).rows / 2⟩ ∧
    frame44.kernel.runBands (perRowReversed ⟨0, 2⟩) (Mat.create 4 4 (fun _ => 0)) =
      frame44.kernel.call ⟨0, (Mat.create 4 4 (fun _ => 0)).rows / 2⟩
        (Mat.create 4 4 (fun _ => 0)) ∧
    (frame44.kernel.call ⟨0, (Mat.create 4 4 (fun _ => 0)).rows / 2⟩
      (Mat.create 4 4 (fun _ => 0))).isSome :=
  have hp : IsPartition (perRowReversed ⟨0, 2⟩) ⟨0, (Mat.create 4 4 (fun _ => 0)).rows / 2⟩ :=
    ⟨by decide, fun j _ hj => by
      have hj' : j < 2 := hj
      interval_cases j <;> rfl⟩
  have hwf : frame44.WellFormed := by
    unfold HostImage.WellFormed HostPlane.Covers
    decide
  ⟨hp, bands_independent frame44.kernel (Mat.create 4 4 (fun _ => 0)) (perRowReversed ⟨0, 2⟩)
    (by decide) (by decide) (by decide)
    (WellFormed.readable hwf (by decide) (by decide)) hp⟩

/-! ## C6: the rows a band writes -/

/-- C6: on an image of even width, an invocation of the loop body on a band `[a, b)` of
row pairs inside the image succeeds, keeps the dimensions, writes the converted bytes
into rows `2a .. 2b-1` and leaves every byte of every other row unchanged; so
invocations on disjoint bands write disjoint rows. -/
theorem band_writes_own_rows (k : YUV420p2RGBA) (out : Mat) (band : Range)
    (hc : out.cols % 2 = 0) (hlen : out.data.length = out.rows * (4 * out.cols))
    (hab : band.start ≤ band.stop) (hb : 2 * band.stop ≤ out.rows)
    (hr : k.Readable (2 * band.stop) out.cols) :
    ∃ m, k.call band out = some m ∧ SameShape out m ∧
      ∀ r t, r < out.rows → t < 4 * out.cols →
        (¬ (2 * band.start ≤ r ∧ r < 2 * band.stop) →
          m.data[r * (4 * out.cols) + t]? = out.data[r * (4 * out.cols) + t]?) ∧
        (2 * band.start ≤ r ∧ r < 2 * band.stop →
          m.data[r * (4 * out.cols) + t]? = some (k.expected r t)) := by
  obtain ⟨d, hd, hl, hg⟩ := call_spec k out (out.cols / 2) band (by omega) hlen hab hb hr
  refine ⟨_, hd, ⟨rfl, rfl, hl⟩, fun r t _ ht => ⟨fun hn => ?_, fun hin => ?_⟩⟩
  · show d[r * (4 * out.cols) + t]? = _
    rw [hg r t ht, if_neg hn]
  · show d[r * (4 * out.cols) + t]? = _
    rw [hg r t ht, if_pos hin]

theorem band_writes_own_rows_witness :
    ∃ m, frame44.kernel.call ⟨1, 2⟩ (Mat.create 4 4 (fun _ => 7)) = some m ∧
      SameShape (Mat.create 4 4 (fun _ => 7)) m ∧
      ∀ r t, r < (Mat.create 4 4 (fun _ => 7)).rows →
        t < 4 * (Mat.create 4 4 (fun _ => 7)).cols →
        (¬ (2 * (Range.mk 1 2).start ≤ r ∧ r < 2 * (Range.mk 1 2).stop) →
          m.data[r * (4 * (Mat.create 4 4 (fun _ => 7)).cols) + t]? =
            (Mat.create 4 4 (fun _ => 7)).data[
              r * (4 * (Mat.create 4 4 (fun _ => 7)).cols) + t]?) ∧
        (2 * (Range.mk 1 2).start ≤ r ∧ r < 2 * (Range.mk 1 2).stop →
          m.data[r * (4 * (Mat.create 4 4 (fun _ => 7)).cols) + t]? =
            some (frame44.kernel.expected r t)) :=
  have hwf : frame44.WellFormed := by
    unfold HostImage.WellFormed HostPlane.Covers
    decide
  band_writes_own_rows frame44.kernel (Mat.create 4 4 (fun _ => 7)) ⟨1, 2⟩ (by decide)
    (by decide) (by decide) (by decide) (WellFormed.readable hwf (by decide) (by decide))

/-! ## C7: alpha -/

/-- C7: for every frame with even width and height (planes covering the frame) and every
choice of input bytes, the conversion succeeds and the 4th byte (index 3) of every pixel
of the result equals 255. -/
theorem alpha_is_255 (split : Range → List Range) (fresh : Nat → Byte) (image : HostImage)
    (hw : 0 < image.getWidth) (hh : 0 < image.getHeight) (hf : image.getFormat = 35)
    (hwf : image.WellFormed) (hs : ValidSplit split image) :
    ∃ m, YUV2BGRA split fresh image = some m ∧
      ∀ r c, r < image.getHeight.toNat → c < image.getWidth.toNat →
        (m.pixel r c)[3]? = some 255 ∧ m.data[(r * image.getWidth.toNat + c) * 4 + 3]? = some 255 := by
  obtain ⟨m, hm, hrows, hcols, hlen, hpix⟩ :=
    YUV2BGRA_pixels split fresh image hw hh hf hwf hs
  refine ⟨m, hm, fun r c hr hc => ?_⟩
  have h := hpix r c (by omega) (by omega)
  have h3 : (m.pixel r c)[3]? = some 255 := by
    rw [h]
    rfl
  refine ⟨h3, ?_⟩
  unfold Mat.pixel Mat.ptr at h3
  rw [List.getElem?_take_of_lt (by omega), List.getElem?_drop, hcols] at h3
  rw [← h3]
  congr 1
  ring

theorem alpha_is_255_witness :
    frame44.WellFormed ∧ ValidSplit whole frame44 ∧
    ∃ m, YUV2BGRA whole (fun _ => 0) frame44 = some m ∧
      ∀ r c, r < frame44.getHeight.toNat → c < frame44.getWidth.toNat →
        (m.pixel r c)[3]? = some 255 ∧
          m.data[(r * frame44.getWidth.toNat + c) * 4 + 3]? = some 255 :=
  have hwf : frame44.WellFormed := by
    unfold HostImage.WellFormed HostPlane.Covers
    decide
  ⟨hwf, whole_valid frame44,
    alpha_is_255 whole (fun _ => 0) frame44 (by decide) (by decide) (by decide) hwf
      (whole_valid frame44)⟩

/-! ## C8: no 32-bit wrap -/

/-- C8: for all bytes `Y`, `U`, `V` the luma term `max(0, Y-16)*CY`, the terms `ruv`, `guv`,
`buv` and the sums `y+ruv`, `y+guv`, `y+buv` lie in the signed 32-bit range; the 32-bit
computation of the loop body equals the exact integer computation; each stored colour
byte is the clamp to `[0, 255]` of the exact sum shifted right by 20 (floor), hence lies
in `[0, 255]`; and the extremes `Y=U=V=255` and `Y=U=V=0` give the clamped pixels
`(255, 125, 255)` and `(0, 154, 0)`. -/
theorem no_wrap (Y U V : Byte) :
    (InInt32 (max 0 (toInt Y - 16) * 1220542) ∧
      InInt32 (2 ^ 19 + 1673527 * (toInt V - 128)) ∧
      InInt32 (2 ^ 19 - 852492 * (toInt V - 128) - 409993 * (toInt U - 128)) ∧
      InInt32 (2 ^ 19 + 2116026 * (toInt U - 128)) ∧
      InInt32 (max 0 (toInt Y - 16) * 1220542 + (2 ^ 19 + 1673527 * (toInt V - 128))) ∧
      InInt32 (max 0 (toInt Y - 16) * 1220542 +
        (2 ^ 19 - 852492 * (toInt V - 128) - 409993 * (toInt U - 128))) ∧
      InInt32 (max 0 (toInt Y - 16) * 1220542 + (2 ^ 19 + 2116026 * (toInt U - 128)))) ∧
    (luma Y = max 0 (toInt Y - 16) * 1220542 ∧
      (chroma U V).ruv = 2 ^ 19 + 1673527 * (toInt V - 128) ∧
      (chroma U V).guv = 2 ^ 19 - 852492 * (toInt V - 128) - 409993 * (toInt U - 128) ∧
      (chroma U V).buv = 2 ^ 19 + 2116026 * (toInt U - 128) ∧
      add32 (luma Y) (chroma U V).ruv =
        max 0 (toInt Y - 16) * 1220542 + (2 ^ 19 + 1673527 * (toInt V - 128)) ∧
      add32 (luma Y) (chroma U V).guv = max 0 (toInt Y - 16) * 1220542 +
        (2 ^ 19 - 852492 * (toInt V - 128) - 409993 * (toInt U - 128)) ∧
      add32 (luma Y) (chroma U V).buv =
        max 0 (toInt Y - 16) * 1220542 + (2 ^ 19 + 2116026 * (toInt U - 128))) ∧
    (toInt (channel (luma Y) (chroma U V).ruv) =
        sat ((max 0 (toInt Y - 16) * 1220542 + (2 ^ 19 + 1673527 * (toInt V - 128))) / 2 ^ 20) ∧
      toInt (channel (luma Y) (chroma U V).guv) =
        sat ((max 0 (toInt Y - 16) * 1220542 +
          (2 ^ 19 - 852492 * (toInt V - 128) - 409993 * (toInt U - 128))) / 2 ^ 20) ∧
      toInt (channel (luma Y) (chroma U V).buv) =
        sat ((max 0 (toInt Y - 16) * 1220542 + (2 ^ 19 + 2116026 * (toInt U - 128))) / 2 ^ 20)) ∧
    (∀ b ∈ bytesToInt (pixelBytes Y U V), 0 ≤ b ∧ b ≤ 255) ∧
    bytesToInt (pixelBytes 255 255 255) = [255, 125, 255, 255] ∧
    bytesToInt (pixelBytes 0 0 0) = [0, 154, 0, 255] := by
  have hy := specY_bounds Y
  have hu := toInt_bounds U
  have hv := toInt_bounds V
  have ely := luma_eq Y
  have ec := chroma_eq U V
  unfold specY at hy ely
  have r1 : InInt32 (max 0 (toInt Y - 16) * 1220542 + (2 ^ 19 + 1673527 * (toInt V - 128))) :=
    ⟨by omega, by omega⟩
  have r2 : InInt32 (max 0 (toInt Y - 16) * 1220542 +
      (2 ^ 19 - 852492 * (toInt V - 128) - 409993 * (toInt U - 128))) :=
    ⟨by omega, by omega⟩
  have r3 : InInt32 (max 0 (toInt Y - 16) * 1220542 + (2 ^ 19 + 2116026 * (toInt U - 128))) :=
    ⟨by omega, by omega⟩
  refine ⟨⟨⟨by omega, by omega⟩, ⟨by omega, by omega⟩, ⟨by omega, by omega⟩,
    ⟨by omega, by omega⟩, r1, r2, r3⟩, ?_, ?_, ?_, by decide, by decide⟩
  · rw [ely, ec]
    exact ⟨rfl, rfl, rfl, rfl, wrap32_eq r1.1 r1.2, wrap32_eq r2.1 r2.2, wrap32_eq r3.1 r3.2⟩
  · rw [ely, ec]
    exact ⟨channel_eq _ _ r1.1 r1.2, channel_eq _ _ r2.1 r2.2, channel_eq _ _ r3.1 r3.2⟩
  · intro b hb
    unfold bytesToInt at hb
    rw [List.mem_map] at hb
    obtain ⟨x, _, rfl⟩ := hb
    exact toInt_bounds x

/-! ## C9: achromatic input -/

/-- C9: when the chroma samples are `U = V = 128`, then for every luma byte `Y` the three
colour bytes of the pixel are equal, their common value being
`saturate((max(0, Y-16)*1220542 + 2^19) >> 20)`. -/
theorem gray_pixel (Y : Byte) :
    bytesToInt (pixelBytes Y 128 128) =
      [sat ((max 0 (toInt Y - 16) * 1220542 + 2 ^ 19) / 2 ^ 20),
        sat ((max 0 (toInt Y - 16) * 1220542 + 2 ^ 19) / 2 ^ 20),
        sat ((max 0 (toInt Y - 16) * 1220542 + 2 ^ 19) / 2 ^ 20), 255] := by
  rw [pixelBytes_eq]
  have h : toInt (128 : Byte) = 128 := rfl
  simp only [specB, specG, specR, specY, h, sub_self, mul_zero, add_zero, sub_zero]

/-! ## C10: the white 2×2 frame -/

/-- C10: converting the 2×2 planar-420 frame with `Y = [235,235,235,235]`, `U = [128]`,
`V = [128]` (format code 35, unit pixel strides, tight row strides) produces an image of
2 rows and 2 columns, that is 4 pixels, each with bytes `(255,255,255,255)`, whatever
the executor's bands and the initial content of the buffer. -/
theorem white_frame (split : Range → List Range) (fresh : Nat → Byte)
    (hs : ValidSplit split frame22) :
    YUV2BGRA split fresh frame22 = some ⟨2, 2, List.replicate 16 255⟩ ∧
      ∀ r, r < 2 → ∀ c, c < 2 →
        (Mat.mk 2 2 (List.replicate 16 255)).pixel r c = [255, 255, 255, 255] := by
  have hwf : frame22.WellFormed := by
    unfold HostImage.WellFormed HostPlane.Covers
    decide
  refine ⟨?_, by decide⟩
  rw [YUV2BGRA_unique split whole fresh (fun _ => 0) frame22 (by decide) (by decide)
    (by decide) hwf hs (whole_valid frame22)]
  decide

theorem white_frame_witness :
    ValidSplit whole frame22 ∧
    YUV2BGRA whole (fun _ => 3) frame22 = some ⟨2, 2, List.replicate 16 255⟩ ∧
      ∀ r, r < 2 → ∀ c, c < 2 →
        (Mat.mk 2 2 (List.replicate 16 255)).pixel r c = [255, 255, 255, 255] :=
  ⟨whole_valid frame22, white_frame whole (fun _ => 3) (whole_valid frame22)⟩

/-! ## C11: the black frame -/

theorem black_pixel : pixelBytes 16 128 128 = [0, 0, 0, 255] := by decide

/-- C11: for every frame with even width and height (planes covering the frame) in which
every luma sample is `Y = 16` and every chroma sample is `U = V = 128`, the conversion
succeeds and every pixel of the result is exactly `(0, 0, 0, 255)`. -/
theorem black_frame (split : Range → List Range) (fresh : Nat → Byte) (image : HostImage)
    (hw : 0 < image.getWidth) (hh : 0 < image.getHeight) (hf : image.getFormat = 35)
    (hwf : image.WellFormed) (hs : ValidSplit split image)
    (hY : ∀ r, r < image.getHeight.toNat → ∀ c, c < image.getWidth.toNat →
      readByte image.planes0.buffer
        ((r : Int) * image.planes0.getRowStride + (c : Int) * image.planes0.getPixelStride) =
          some 16)
    (hU : ∀ r, r < image.getHeight.toNat / 2 → ∀ c, c < image.getWidth.toNat / 2 →
      readByte image.planes1.buffer
        ((r : Int) * image.planes1.getRowStride + (c : Int) * image.planes1.getPixelStride) =
          some 128)
    (hV : ∀ r, r < image.getHeight.toNat / 2 → ∀ c, c < image.getWidth.toNat / 2 →
      readByte image.planes2.buffer
        ((r : Int) * image.planes2.getRowStride + (c : Int) * image.planes2.getPixelStride) =
          some 128) :
    ∃ m, YUV2BGRA split fresh image = some m ∧
      m.rows = image.getHeight.toNat ∧ m.cols = image.getWidth.toNat ∧
      ∀ r c, r < image.getHeight.toNat → c < image.getWidth.toNat →
        m.pixel r c = [0, 0, 0, 255] := by
  obtain ⟨m, hm, hrows, hcols, _, hpix⟩ :=
    YUV2BGRA_pixels split fresh image hw hh hf hwf hs
  have hW : image.getWidth % 2 = 0 := hwf.1
  have hH : image.getHeight % 2 = 0 := hwf.2.1
  refine ⟨m, hm, hrows, hcols, fun r c hr hc => ?_⟩
  have e1 := hY r hr c hc
  have e2 := hU (r / 2) (by omega) (c / 2) (by omega)
  have e3 := hV (r / 2) (by omega) (c / 2) (by omega)
  rw [hpix r c (by omega) (by omega)]
  simp only [readD, e1, e2, e3, Option.getD_some]
  exact black_pixel

theorem black_frame_witness :
    blackFrame.WellFormed ∧ ValidSplit whole blackFrame ∧
    ∃ m, YUV2BGRA whole (fun _ => 1) blackFrame = some m ∧
      m.rows = blackFrame.getHeight.toNat ∧ m.cols = blackFrame.getWidth.toNat ∧
      ∀ r c, r < blackFrame.getHeight.toNat → c < blackFrame.getWidth.toNat →
        m.pixel r c = [0, 0, 0, 255] :=
  have hwf : blackFrame.WellFormed := by
    unfold HostImage.WellFormed HostPlane.Covers
    decide
  ⟨hwf, whole_valid blackFrame,
    black_frame whole (fun _ => 1) blackFrame (by decide) (by decide) (by decide) hwf
      (whole_valid blackFrame) (by decide) (by decide) (by decide)⟩

/-! ## C14 and C15: the luma ramp -/

theorem sat_mono {a b : Int} (h : a ≤ b) : sat a ≤ sat b := by
  unfold sat
  split_ifs <;> omega

theorem specY_mono {a b : Int} (h : a ≤ b) : specY a ≤ specY b := by
  unfold specY
  rcases le_total 0 (a - 16) with ha | ha <;> rcases le_total 0 (b - 16) with hb | hb
  · rw [max_eq_right ha, max_eq_right hb]; omega
  · rw [max_eq_right ha, max_eq_left hb]; omega
  · rw [max_eq_left ha, max_eq_right hb]; omega
  · rw [max_eq_left ha, max_eq_left hb]

theorem channel_mono (Y1 Y2 : Byte) (c : Int) (h1 : -2 ^ 29 ≤ c) (h2 : c ≤ 2 ^ 29)
    (h : toInt Y1 ≤ toInt Y2) :
    toInt (channel (luma Y1) c) ≤ toInt (channel (luma Y2) c) := by
  have b1 := specY_bounds Y1
  have b2 := specY_bounds Y2
  rw [luma_eq, luma_eq, channel_eq _ _ (by omega) (by omega),
    channel_eq _ _ (by omega) (by omega)]
  apply sat_mono
  apply Int.ediv_le_ediv (by norm_num)
  have := specY_mono h
  omega

theorem chroma_bounds (U V : Byte) :
    (-2 ^ 29 ≤ (chroma U V).buv ∧ (chroma U V).buv ≤ 2 ^ 29) ∧
    (-2 ^ 29 ≤ (chroma U V).guv ∧ (chroma U V).guv ≤ 2 ^ 29) ∧
    (-2 ^ 29 ≤ (chroma U V).ruv ∧ (chroma U V).ruv ≤ 2 ^ 29) := by
  have hu := toInt_bounds U
  have hv := toInt_bounds V
  rw [chroma_eq]
  refine ⟨⟨?_, ?_⟩, ⟨?_, ?_⟩, ⟨?_, ?_⟩⟩ <;> simp only <;> omega

theorem luma_floor (Y : Byte) (h : toInt Y ≤ 16) : luma Y = luma 16 := by
  have h16 : toInt (16 : Byte) = 16 := rfl
  rw [luma_eq, luma_eq, h16]
  unfold specY
  rw [max_eq_left (by omega), max_eq_left (by omega)]

theorem pixelBytes_achromatic (Y : Byte) :
    bytesToInt (pixelBytes Y 128 128) =
      [sat ((max 0 (toInt Y - 16) * 1220542 + 2 ^ 19) / 2 ^ 20),
        sat ((max 0 (toInt Y - 16) * 1220542 + 2 ^ 19) / 2 ^ 20),
        sat ((max 0 (toInt Y - 16) * 1220542 + 2 ^ 19) / 2 ^ 20), 255] := by
  rw [pixelBytes_eq]
  have h : toInt (128 : Byte) = 128 := rfl
  simp only [specB, specG, specR, specY, h, sub_self, mul_zero, add_zero, sub_zero]

theorem gray_zero_iff (Y : Byte) :
    sat ((max 0 (toInt Y - 16) * 1220542 + 2 ^ 19) / 2 ^ 20) = 0 ↔ toInt Y ≤ 16 := by
  have hb := toInt_bounds Y
  unfold sat
  rcases le_total 0 (toInt Y - 16) with h | h
  · rw [max_eq_right h]
    split_ifs <;> omega
  · rw [max_eq_left h]
    split_ifs <;> omega

theorem gray_full_iff (Y : Byte) :
    sat ((max 0 (toInt Y - 16) * 1220542 + 2 ^ 19) / 2 ^ 20) = 255 ↔ 235 ≤ toInt Y := by
  have hb := toInt_bounds Y
  unfold sat
  rcases le_total 0 (toInt Y - 16) with h | h
  · rw [max_eq_right h]
    split_ifs <;> omega
  · rw [max_eq_left h]
    split_ifs <;> omega

/-- C14: for achromatic input (`U = V = 128`) and every luma byte `Y`, the three colour
bytes have a common value, which is 0 exactly when `Y ≤ 16` and 255 exactly when
`Y ≥ 235`; over the video range `[16, 235]` the value stays in `[0, 255]`, grows with
`Y`, and reaches both ends of `[0, 255]`, 0 at `Y = 16` and 255 at `Y = 235`. -/
theorem gray_range (Y : Byte) :
    (∃ g, bytesToInt (pixelBytes Y 128 128) = [g, g, g, 255] ∧ 0 ≤ g ∧ g ≤ 255 ∧
      (g = 0 ↔ toInt Y ≤ 16) ∧ (g = 255 ↔ 235 ≤ toInt Y)) ∧
    (bytesToInt (pixelBytes Y 128 128) = [0, 0, 0, 255] ↔ toInt Y ≤ 16) ∧
    (bytesToInt (pixelBytes Y 128 128) = [255, 255, 255, 255] ↔ 235 ≤ toInt Y) ∧
    (∀ Y' : Byte, toInt Y ≤ toInt Y' →
      ∀ i, i < 3 → ((bytesToInt (pixelBytes Y 128 128)).getD i 0 ≤
        (bytesToInt (pixelBytes Y' 128 128)).getD i 0)) ∧
    bytesToInt (pixelBytes 16 128 128) = [0, 0, 0, 255] ∧
    bytesToInt (pixelBytes 235 128 128) = [255, 255, 255, 255] := by
  have hz := gray_zero_iff Y
  have hf := gray_full_iff Y
  have hp := pixelBytes_achromatic Y
  refine ⟨⟨_, hp, ?_, ?_, hz, hf⟩, ?_, ?_, ?_, by decide, by decide⟩
  · unfold sat; split_ifs <;> omega
  · unfold sat; split_ifs <;> omega
  · rw [hp]
    constructor
    · intro h
      simp only [List.cons.injEq, and_true] at h
      exact hz.mp h.1
    · intro h
      rw [hz.mpr h]
  · rw [hp]
    constructor
    · intro h
      simp only [List.cons.injEq, and_true] at h
      exact hf.mp h.1
    · intro h
      rw [hf.mpr h]
  · intro Y' hY i hi
    have hc := chroma_bounds 128 128
    have m1 := channel_mono Y Y' _ hc.1.1 hc.1.2 hY
    have m2 := channel_mono Y Y' _ hc.2.1.1 hc.2.1.2 hY
    have m3 := channel_mono Y Y' _ hc.2.2.1 hc.2.2.2 hY
    unfold bytesToInt pixelBytes
    interval_cases i
    · exact m1
    · exact m2
    · exact m3

/-- C15: for fixed chroma bytes `U` and `V`, each of the three colour bytes of a pixel is
a non-decreasing function of the luma byte: for `Y1 ≤ Y2` each colour byte computed
from `(Y1, U, V)` is at most the corresponding byte computed from `(Y2, U, V)`; and every
`Y ≤ 16` gives the same pixel as `Y = 16`. -/
theorem luma_monotone (Y1 Y2 U V : Byte) (h : toInt Y1 ≤ toInt Y2) :
    (toInt (channel (luma Y1) (chroma U V).buv) ≤ toInt (channel (luma Y2) (chroma U V).buv) ∧
      toInt (channel (luma Y1) (chroma U V).guv) ≤
        toInt (channel (luma Y2) (chroma U V).guv) ∧
      toInt (channel (luma Y1) (chroma U V).ruv) ≤
        toInt (channel (luma Y2) (chroma U V).ruv)) ∧
    (∀ i, i < 4 → (bytesToInt (pixelBytes Y1 U V)).getD i 0 ≤
      (bytesToInt (pixelBytes Y2 U V)).getD i 0) ∧
    (∀ Y : Byte, toInt Y ≤ 16 → pixelBytes Y U V = pixelBytes 16 U V) := by
  have hc := chroma_bounds U V
  have m1 := channel_mono Y1 Y2 _ hc.1.1 hc.1.2 h
  have m2 := channel_mono Y1 Y2 _ hc.2.1.1 hc.2.1.2 h
  have m3 := channel_mono Y1 Y2 _ hc.2.2.1 hc.2.2.2 h
  refine ⟨⟨m1, m2, m3⟩, fun i hi => ?_, fun Y h16 => ?_⟩
  · unfold bytesToInt pixelBytes
    interval_cases i
    · exact m1
    · exact m2
    · exact m3
    · exact le_refl _
  · unfold pixelBytes
    rw [luma_floor Y h16]

theorem luma_monotone_witness :
    toInt (10 : Byte) ≤ toInt (200 : Byte) ∧
    ((toInt (channel (luma 10) (chroma 90 200).buv) ≤
        toInt (channel (luma 200) (chroma 90 200).buv) ∧
      toInt (channel (luma 10) (chroma 90 200).guv) ≤
        toInt (channel (luma 200) (chroma 90 200).guv) ∧
      toInt (channel (luma 10) (chroma 90 200).ruv) ≤
        toInt (channel (luma 200) (chroma 90 200).ruv)) ∧
    (∀ i, i < 4 → (bytesToInt (pixelBytes 10 90 200)).getD i 0 ≤
      (bytesToInt (pixelBytes 200 90 200)).getD i 0) ∧
    (∀ Y : Byte, toInt Y ≤ 16 → pixelBytes Y 90 200 = pixelBytes 16 90 200)) :=
  ⟨by decide, luma_monotone 10 200 90 200 (by decide)⟩

/-! ## C12 and C13: the extent of the reads and writes -/

theorem readByte_isSome_lt {p : List Byte} {off : Int} (h : (readByte p off).isSome) :
    0 ≤ off ∧ off < p.length := by
  unfold readByte at h
  by_cases h0 : 0 ≤ off
  · rw [if_pos h0] at h
    obtain ⟨b, hb⟩ := Option.isSome_iff_exists.mp h
    have := (List.getElem?_eq_some.mp hb).1
    omega
  · rw [if_neg h0] at h
    exact absurd h (by simp)

theorem readByte_take (buf : List Byte) (n : Nat) (off : Int) (h : off < n) :
    readByte (buf.take n) off = readByte buf off := by
  unfold readByte
  by_cases h0 : 0 ≤ off
  · rw [if_pos h0, if_pos h0, List.getElem?_take_of_lt (by omega)]
  · rw [if_neg h0, if_neg h0]

theorem readD_take (buf : List Byte) (n : Nat) (off : Int) (h : off < n) :
    readD (buf.take n) off = readD buf off := by
  unfold readD
  rw [readByte_take buf n off h]

theorem extent_nonneg (rs ps h w : Int) (hrs : 0 < rs) (hps : 0 < ps) (hh : 1 ≤ h)
    (hw : 1 ≤ w) : 0 ≤ rs * (h - 1) + ps * (w - 1) := by
  have h1 : 0 ≤ rs * (h - 1) := Int.mul_nonneg (le_of_lt hrs) (by omega)
  have h2 : 0 ≤ ps * (w - 1) := Int.mul_nonneg (le_of_lt hps) (by omega)
  omega

theorem cut_length (p : HostPlane) (h w : Int) (hc : p.Covers h w) (hh : 1 ≤ h) (hw : 1 ≤ w) :
    ((p.cut h w).buffer.length : Int) =
      p.getRowStride * (h - 1) + p.getPixelStride * (w - 1) + 1 := by
  obtain ⟨hps, hrs, hlen⟩ := hc
  have h0 := extent_nonneg p.getRowStride p.getPixelStride h w hrs hps hh hw
  unfold HostPlane.cut
  simp only [List.length_take]
  omega

theorem Covers.cut {p : HostPlane} {h w : Int} (hc : p.Covers h w) (hh : 1 ≤ h) (hw : 1 ≤ w) :
    (p.cut h w).Covers h w := by
  have hl := cut_length p h w hc hh hw
  obtain ⟨hps, hrs, hlen⟩ := hc
  refine ⟨hps, hrs, ?_⟩
  show p.getRowStride * (h - 1) + p.getPixelStride * (w - 1) < ((p.cut h w).buffer.length : Int)
  omega

theorem readD_cut (p : HostPlane) (H W r c : Nat) (hc : p.Covers (H : Int) (W : Int))
    (hr : r < H) (hcW : c < W) :
    readD (p.cut (H : Int) (W : Int)).buffer
        ((r : Int) * p.getRowStride + (c : Int) * p.getPixelStride) =
      readD p.buffer ((r : Int) * p.getRowStride + (c : Int) * p.getPixelStride) := by
  have hb := offset_bounds p.getRowStride p.getPixelStride H W r c hc.2.1 hc.1 hr hcW
  unfold HostPlane.cut
  exact readD_take _ _ _ (by omega)

/-- Two well-formed frames of the same dimensions whose expected bytes agree convert to
the same image. -/
theorem YUV2BGRA_congr (split : Range → List Range) (fresh : Nat → Byte)
    (image image' : HostImage)
    (hw : 0 < image.getWidth) (hh : 0 < image.getHeight) (hf : image.getFormat = 35)
    (hwf : image.WellFormed) (hs : ValidSplit split image)
    (hf' : image'.getFormat = 35) (hwf' : image'.WellFormed)
    (hW : image'.getWidth = image.getWidth) (hH : image'.getHeight = image.getHeight)
    (hexp : ∀ r t, r < image.getHeight.toNat → t < 4 * image.getWidth.toNat →
      image'.kernel.expected r t = image.kernel.expected r t) :
    YUV2BGRA split fresh image' = YUV2BGRA split fresh image := by
  have hs' : ValidSplit split image' := by
    unfold ValidSplit
    rw [hH]
    exact hs
  obtain ⟨d, hd, hl, hg⟩ := YUV2BGRA_spec split fresh image hw hh hf hwf hs
  obtain ⟨d', hd', hl', hg'⟩ := YUV2BGRA_spec split fresh image' (by omega) (by omega) hf'
    hwf' hs'
  rw [hW, hH] at hd' hl' hg'
  rw [hd, hd']
  have : d' = d := ext_rows hl' hl (fun r t hr ht => by
    rw [hg r t hr ht, hg' r t hr ht, hexp r t hr ht])
  rw [this]

theorem half_dims {image : HostImage} (hwf : image.WellFormed) (hw : 0 < image.getWidth)
    (hh : 0 < image.getHeight) :
    image.getHeight = ((image.getHeight.toNat : Nat) : Int) ∧
    image.getWidth = ((image.getWidth.toNat : Nat) : Int) ∧
    image.getHeight / 2 = ((image.getHeight.toNat / 2 : Nat) : Int) ∧
    image.getWidth / 2 = ((image.getWidth.toNat / 2 : Nat) : Int) ∧
    1 ≤ image.getHeight / 2 ∧ 1 ≤ image.getWidth / 2 := by
  have h1 := hwf.1
  have h2 := hwf.2.1
  refine ⟨?_, ?_, ?_, ?_, ?_, ?_⟩ <;> omega

theorem cutChroma_wellFormed {image : HostImage} (hwf : image.WellFormed)
    (hw : 0 < image.getWidth) (hh : 0 < image.getHeight) : image.cutChroma.WellFormed := by
  obtain ⟨_, _, _, _, h1, h2⟩ := half_dims hwf hw hh
  exact ⟨hwf.1, hwf.2.1, hwf.2.2.1, Covers.cut hwf.2.2.2.1 h1 h2,
    Covers.cut hwf.2.2.2.2.1 h1 h2, Nat.le_refl 3⟩

theorem cutLuma_wellFormed {image : HostImage} (hwf : image.WellFormed)
    (hw : 0 < image.getWidth) (hh : 0 < image.getHeight) : image.cutLuma.WellFormed :=
  ⟨hwf.1, hwf.2.1, Covers.cut hwf.2.2.1 (by omega) (by omega), hwf.2.2.2.1, hwf.2.2.2.2.1,
    Nat.le_refl 3⟩

theorem cutChroma_planes (image : HostImage) :
    image.cutChroma.planes0 = image.planes0 ∧
    image.cutChroma.planes1 = image.planes1.cut (image.getHeight / 2) (image.getWidth / 2) ∧
    image.cutChroma.planes2 = image.planes2.cut (image.getHeight / 2) (image.getWidth / 2) :=
  ⟨rfl, rfl, rfl⟩

theorem cutLuma_planes (image : HostImage) :
    image.cutLuma.planes0 = image.planes0.cut image.getHeight image.getWidth ∧
    image.cutLuma.planes1 = image.planes1 ∧ image.cutLuma.planes2 = image.planes2 :=
  ⟨rfl, rfl, rfl⟩

theorem expected_cutChroma {image : HostImage} (hwf : image.WellFormed)
    (hw : 0 < image.getWidth) (hh : 0 < image.getHeight) (r t : Nat)
    (hr : r < image.getHeight.toNat) (ht : t < 4 * image.getWidth.toNat) :
    image.cutChroma.kernel.expected r t = image.kernel.expected r t := by
  obtain ⟨_, _, eH2, eW2, _, _⟩ := half_dims hwf hw hh
  have hW2 := hwf.1
  have hH2 := hwf.2.1
  have cU := hwf.2.2.2.1
  have cV := hwf.2.2.2.2.1
  rw [eH2, eW2] at cU cV
  have eU := readD_cut image.planes1 _ _ (r / 2) (t / 8) cU (by omega) (by omega)
  have eV := readD_cut image.planes2 _ _ (r / 2) (t / 8) cV (by omega) (by omega)
  rw [← eH2, ← eW2] at eU eV
  unfold YUV420p2RGBA.expected YUV420p2RGBA.rowBytes
  simp only [HostPlane.cut] at eU eV
  simp only [HostImage.kernel, YUV420p2RGBA.mk', HostImage.yuvInfo, planeInfo,
    (cutChroma_planes image).1, (cutChroma_planes image).2.1, (cutChroma_planes image).2.2,
    HostPlane.cut]
  rw [eU, eV]

theorem expected_cutLuma {image : HostImage} (hwf : image.WellFormed)
    (hw : 0 < image.getWidth) (hh : 0 < image.getHeight) (r t : Nat)
    (hr : r < image.getHeight.toNat) (ht : t < 4 * image.getWidth.toNat) :
    image.cutLuma.kernel.expected r t = image.kernel.expected r t := by
  obtain ⟨eH, eW, _, _, _, _⟩ := half_dims hwf hw hh
  have cY := hwf.2.2.1
  rw [eH, eW] at cY
  have eY := readD_cut image.planes0 _ _ r (t / 4) cY hr (by omega)
  rw [← eH, ← eW] at eY
  unfold YUV420p2RGBA.expected YUV420p2RGBA.rowBytes
  simp only [HostPlane.cut] at eY
  simp only [HostImage.kernel, YUV420p2RGBA.mk', HostImage.yuvInfo, planeInfo,
    (cutLuma_planes image).1, (cutLuma_planes image).2.1, (cutLuma_planes image).2.2,
    HostPlane.cut]
  rw [eY]

/-- C12: for every frame with even width and height and positive chroma strides, the
offsets of the U samples (resp. V samples) the conversion uses lie between 0 and
`rowStride * (height/2 - 1) + pixelStride * (width/2 - 1)` for that plane's strides, and
the conversion reads no byte of a chroma plane past that offset: with both chroma planes
cut right after it, leaving `offset + 1` bytes, every read still succeeds and the
conversion returns the same image. -/
theorem chroma_reads_bounded (split : Range → List Range) (fresh : Nat → Byte)
    (image : HostImage) (hw : 0 < image.getWidth) (hh : 0 < image.getHeight)
    (hf : image.getFormat = 35) (hwf : image.WellFormed) (hs : ValidSplit split image) :
    (∀ r c, r < image.getHeight.toNat → c < image.getWidth.toNat →
      (0 ≤ ((r / 2 : Nat) : Int) * image.planes1.getRowStride +
          ((c / 2 : Nat) : Int) * image.planes1.getPixelStride ∧
        ((r / 2 : Nat) : Int) * image.planes1.getRowStride +
          ((c / 2 : Nat) : Int) * image.planes1.getPixelStride ≤
            image.planes1.getRowStride * (image.getHeight / 2 - 1) +
              image.planes1.getPixelStride * (image.getWidth / 2 - 1)) ∧
      (0 ≤ ((r / 2 : Nat) : Int) * image.planes2.getRowStride +
          ((c / 2 : Nat) : Int) * image.planes2.getPixelStride ∧
        ((r / 2 : Nat) : Int) * image.planes2.getRowStride +
          ((c / 2 : Nat) : Int) * image.planes2.getPixelStride ≤
            image.planes2.getRowStride * (image.getHeight / 2 - 1) +
              image.planes2.getPixelStride * (image.getWidth / 2 - 1))) ∧
    ((image.cutChroma.planes1.buffer.length : Int) =
        image.planes1.getRowStride * (image.getHeight / 2 - 1) +
          image.planes1.getPixelStride * (image.getWidth / 2 - 1) + 1 ∧
      (image.cutChroma.planes2.buffer.length : Int) =
        image.planes2.getRowStride * (image.getHeight / 2 - 1) +
          image.planes2.getPixelStride * (image.getWidth / 2 - 1) + 1) ∧
    (∀ off, ((readByte image.cutChroma.planes1.buffer off).isSome →
        0 ≤ off ∧ off ≤ image.planes1.getRowStride * (image.getHeight / 2 - 1) +
          image.planes1.getPixelStride * (image.getWidth / 2 - 1)) ∧
      ((readByte image.cutChroma.planes2.buffer off).isSome →
        0 ≤ off ∧ off ≤ image.planes2.getRowStride * (image.getHeight / 2 - 1) +
          image.planes2.getPixelStride * (image.getWidth / 2 - 1))) ∧
    (YUV2BGRA split fresh image.cutChroma).isSome ∧
    YUV2BGRA split fresh image.cutChroma = YUV2BGRA split fresh image := by
  obtain ⟨_, _, eH2, eW2, h1, h2⟩ := half_dims hwf hw hh
  have hW2 := hwf.1
  have hH2 := hwf.2.1
  have hcut := YUV2BGRA_congr split fresh image image.cutChroma hw hh hf hwf hs hf
    (cutChroma_wellFormed hwf hw hh) rfl rfl (expected_cutChroma hwf hw hh)
  obtain ⟨d, hd, _⟩ := YUV2BGRA_spec split fresh image hw hh hf hwf hs
  have lU := cut_length _ _ _ hwf.2.2.2.1 h1 h2
  have lV := cut_length _ _ _ hwf.2.2.2.2.1 h1 h2
  refine ⟨fun r c hr hc => ?_, ⟨lU, lV⟩, fun off => ⟨fun h => ?_, fun h => ?_⟩, ?_, hcut⟩
  · have bU := offset_bounds image.planes1.getRowStride image.planes1.getPixelStride
      (image.getHeight.toNat / 2) (image.getWidth.toNat / 2) (r / 2) (c / 2)
      hwf.2.2.2.1.2.1 hwf.2.2.2.1.1 (by omega) (by omega)
    have bV := offset_bounds image.planes2.getRowStride image.planes2.getPixelStride
      (image.getHeight.toNat / 2) (image.getWidth.toNat / 2) (r / 2) (c / 2)
      hwf.2.2.2.2.1.2.1 hwf.2.2.2.2.1.1 (by omega) (by omega)
    rw [← eH2, ← eW2] at bU bV
    exact ⟨bU, bV⟩
  · have := readByte_isSome_lt h
    exact ⟨this.1, by
      have l : (image.cutChroma.planes1.buffer.length : Int) = _ := lU
      omega⟩
  · have := readByte_isSome_lt h
    exact ⟨this.1, by
      have l : (image.cutChroma.planes2.buffer.length : Int) = _ := lV
      omega⟩
  · rw [hcut, hd]
    rfl

theorem chroma_reads_bounded_witness :
    frame44.WellFormed ∧ ValidSplit perRowReversed frame44 ∧
    frame44.cutChroma.planes1.buffer = [0, 9, 255, 9, 128, 9, 90] ∧
    (YUV2BGRA perRowReversed (fun _ => 0) frame44.cutChroma).isSome ∧
    YUV2BGRA perRowReversed (fun _ => 0) frame44.cutChroma =
      YUV2BGRA perRowReversed (fun _ => 0) frame44 :=
  have hwf : frame44.WellFormed := by
    unfold HostImage.WellFormed HostPlane.Covers
    decide
  have hs : ValidSplit perRowReversed frame44 :=
    ⟨by decide, fun j _ hj => by
      have hj' : j < 2 := hj
      interval_cases j <;> rfl⟩
  ⟨hwf, hs, by decide,
    (chroma_reads_bounded perRowReversed (fun _ => 0) frame44 (by decide) (by decide)
      (by decide) hwf hs).2.2.2⟩

/-- C13: for every frame with even width and height and positive luma strides, the
offsets of the luma samples the conversion uses lie between 0 and
`yRowStride * (height - 1) + yPixelStride * (width - 1)`, the output buffer has
`4 * width * height` bytes and the bytes of every pixel lie below that index; and no read
or write of the conversion fails when the planes have at least those extents: the
conversion returns an image, also with the luma plane cut right after that offset, and
then the same image. -/
theorem luma_reads_and_writes_bounded (split : Range → List Range) (fresh : Nat → Byte)
    (image : HostImage) (hw : 0 < image.getWidth) (hh : 0 < image.getHeight)
    (hf : image.getFormat = 35) (hwf : image.WellFormed) (hs : ValidSplit split image) :
    (∀ r c, r < image.getHeight.toNat → c < image.getWidth.toNat →
      0 ≤ (r : Int) * image.planes0.getRowStride + (c : Int) * image.planes0.getPixelStride ∧
      (r : Int) * image.planes0.getRowStride + (c : Int) * image.planes0.getPixelStride ≤
        image.planes0.getRowStride * (image.getHeight - 1) +
          image.planes0.getPixelStride * (image.getWidth - 1)) ∧
    (∀ r c i, r < image.getHeight.toNat → c < image.getWidth.toNat → i < 4 →
      (Mat.create image.getHeight image.getWidth fresh).ptr r + 4 * c + i <
        4 * image.getWidth.toNat * image.getHeight.toNat) ∧
    (Mat.create image.getHeight image.getWidth fresh).data.length =
      4 * image.getWidth.toNat * image.getHeight.toNat ∧
    (∃ m, YUV2BGRA split fresh image = some m ∧
      m.data.length = 4 * image.getWidth.toNat * image.getHeight.toNat) ∧
    (image.cutLuma.planes0.buffer.length : Int) =
      image.planes0.getRowStride * (image.getHeight - 1) +
        image.planes0.getPixelStride * (image.getWidth - 1) + 1 ∧
    (∀ off, (readByte image.cutLuma.planes0.buffer off).isSome →
      0 ≤ off ∧ off ≤ image.planes0.getRowStride * (image.getHeight - 1) +
        image.planes0.getPixelStride * (image.getWidth - 1)) ∧
    (∀ (d : List Byte) (off : Nat) (b : Byte),
      d.length = 4 * image.getWidth.toNat * image.getHeight.toNat →
      (writeByte d off b).isSome → off < 4 * image.getWidth.toNat * image.getHeight.toNat) ∧
    YUV2BGRA split fresh image.cutLuma = YUV2BGRA split fresh image := by
  obtain ⟨eH, eW, _, _, _, _⟩ := half_dims hwf hw hh
  have hcut := YUV2BGRA_congr split fresh image image.cutLuma hw hh hf hwf hs hf
    (cutLuma_wellFormed hwf hw hh) rfl rfl (expected_cutLuma hwf hw hh)
  obtain ⟨d, hd, hl, _⟩ := YUV2BGRA_spec split fresh image hw hh hf hwf hs
  have hmul : image.getHeight.toNat * (4 * image.getWidth.toNat) =
      4 * image.getWidth.toNat * image.getHeight.toNat := Nat.mul_comm _ _
  have lY := cut_length _ _ _ hwf.2.2.1 (by omega) (by omega)
  refine ⟨fun r c hr hc => ?_, fun r c i hr hc hi => ?_, ?_, ⟨_, hd, by rw [← hmul]; exact hl⟩,
    lY, fun off h => ?_, fun d off b hlen h => ?_, hcut⟩
  · have bY := offset_bounds image.planes0.getRowStride image.planes0.getPixelStride
      image.getHeight.toNat image.getWidth.toNat r c hwf.2.2.1.2.1 hwf.2.2.1.1 hr hc
    rw [← eH, ← eW] at bY
    exact bY
  · have h1 := row_lt (4 * image.getWidth.toNat) r image.getHeight.toNat (4 * c + i) hr
      (by omega)
    show r * (4 * image.getWidth.toNat) + 4 * c + i < _
    rw [← hmul]
    omega
  · rw [Mat.create_length, ← hmul]
    rfl
  · have := readByte_isSome_lt h
    exact ⟨this.1, by
      have l : (image.cutLuma.planes0.buffer.length : Int) = _ := lY
      omega⟩
  · unfold writeByte at h
    by_cases hlt : off < d.length
    · omega
    · rw [if_neg hlt] at h
      exact absurd h (by simp)

theorem luma_reads_and_writes_bounded_witness :
    frame44.WellFormed ∧ ValidSplit whole frame44 ∧
    frame44.cutLuma.planes0.buffer.length = 22 ∧
    YUV2BGRA whole (fun _ => 0) frame44.cutLuma = YUV2BGRA whole (fun _ => 0) frame44 :=
  have hwf : frame44.WellFormed := by
    unfold HostImage.WellFormed HostPlane.Covers
    decide
  ⟨hwf, whole_valid frame44, by decide,
    (luma_reads_and_writes_bounded whole (fun _ => 0) frame44 (by decide) (by decide)
      (by decide) hwf (whole_valid frame44)).2.2.2.2.2.2.2⟩

end Demondk
